import Mathlib

/-!
Shallow embedding of the MVCC transactional key-value layer
(`src/storage/kv/mvcc.rs`) and proofs about its key encoding, snapshot
visibility, write-conflict detection, rollback and scan iterator.

Bytes are modelled as `List Nat` (each entry a byte value); `u64` values are
`Nat` with explicit `< 2^64` bounds where the Rust type matters. The ordered
underlying `Store` is modelled as an association list sorted strictly by key
under the lexicographic byte order, with range scans as order-preserving
filters (faithful to Rust's `BTreeMap` range contract).
-/

namespace Toydb

/-- A byte string (Rust `Vec<u8>`). Entries are byte values. -/

abbrev Bytes := List Nat

/-- Strict lexicographic order on byte strings, matching Rust's `Ord` for
`Vec<u8>`: a proper prefix sorts before its extensions. -/

def bytesLt : Bytes → Bytes → Bool
  | [], [] => false
  | [], _ :: _ => true
  | _ :: _, [] => false
  | a :: as, b :: bs => a < b || (a == b && bytesLt as bs)

/-- Fixed-width big-endian byte encoding of a natural number, most significant
byte first: `beBytes 8 v` models Rust `u64::to_be_bytes(v)` for `v < 2^64`. -/

def beBytes : Nat → Nat → Bytes
  | 0, _ => []
  | n + 1, v => v / 256 ^ n :: beBytes n (v % 256 ^ n)

/-- Big-endian value of a byte string, as in Rust `u64::from_be_bytes`. -/

def fromBe : Bytes → Nat
  | [] => 0
  | b :: rest => b * 256 ^ rest.length + fromBe rest

/-- Fixed-width little-endian byte encoding, least significant byte first;
used to model the `bincode` payload serializer for lengths and ids. -/

def leBytes : Nat → Nat → Bytes
  | 0, _ => []
  | n + 1, v => v % 256 :: leBytes n (v / 256)

/-- Little-endian value of a byte string. -/

def fromLe : Bytes → Nat
  | [] => 0
  | b :: rest => b + 256 * fromLe rest

/-- The order-preserving escape encoding for embedded byte strings
(`Key::encode_bytes`): each `0x00` is written `0x00 0xff`, and the value is
terminated with `0x00 0x00`. -/

def escape : Bytes → Bytes
  | [] => [0x00, 0x00]
  | b :: rest => if b = 0 then 0x00 :: 0xff :: escape rest else b :: escape rest

/-- Inverse of `escape` (`Key::decode_bytes`): consumes an escaped byte string
from the front of the input and returns the decoded value plus the remaining
input, or `none` for malformed `0x00` runs or missing terminators. -/

def decodeBytes : Bytes → Option (Bytes × Bytes)
  | [] => none
  | b :: rest =>
    if b = 0 then
      match rest with
      | [] => none
      | c :: rest2 =>
        if c = 0 then some ([], rest2)
        else if c = 0xff then (decodeBytes rest2).map fun p => (0 :: p.1, p.2)
        else none
    else (decodeBytes rest).map fun p => (b :: p.1, p.2)

/-- Errors raised by the MVCC module (`Error` variants used in `mvcc.rs`). -/

inductive Err
  | serialization
  | readOnly
  | value (msg : String)
  | internal (msg : String)
deriving DecidableEq, Repr

/-- Transaction modes (`Mode`). -/

inductive Mode
  | readWrite
  | readOnly
  | snapshot (version : Nat)
deriving DecidableEq, Repr

/-- Models `Mode::mutable`: only `ReadWrite` can mutate data. -/

def Mode.mutable : Mode → Bool
  | .readWrite => true
  | .readOnly => false
  | .snapshot _ => false

/-- The MVCC key union (`Key`). `u64` fields are `Nat`s, meaningful below
`2^64`. -/

inductive Key
  | txnNext
  | txnActive (id : Nat)
  | txnSnapshot (version : Nat)
  | txnUpdate (id : Nat) (key : Bytes)
  | record (key : Bytes) (version : Nat)
  | metadata (key : Bytes)
deriving DecidableEq, Repr

/-- Well-formedness of a key: its `u64` fields fit in 64 bits. -/

def Key.wf : Key → Prop
  | .txnNext => True
  | .txnActive id => id < 2 ^ 64
  | .txnSnapshot v => v < 2 ^ 64
  | .txnUpdate id _ => id < 2 ^ 64
  | .record _ v => v < 2 ^ 64
  | .metadata _ => True

/-- Models `Key::encode`: one-byte tag, big-endian `u64`s, escape-encoded byte
strings where further fields follow, raw bytes for the final `TxnUpdate`
field. -/

def Key.encode : Key → Bytes
  | .txnNext => [0x01]
  | .txnActive id => 0x02 :: beBytes 8 id
  | .txnSnapshot v => 0x03 :: beBytes 8 v
  | .txnUpdate id k => 0x04 :: (beBytes 8 id ++ k)
  | .metadata k => 0x05 :: escape k
  | .record k v => 0xff :: (escape k ++ beBytes 8 v)

/-- Models `Key::decode_u64`: consume exactly eight bytes, big-endian. -/

def decodeU64 (l : Bytes) : Option (Nat × Bytes) :=
  if 8 ≤ l.length then some (fromBe (l.take 8), l.drop 8) else none

/-- Models `Key::decode`: dispatch on the tag byte; trailing bytes after a complete
key are ignored, exactly as in the iterator-based Rust decoder. -/

def Key.decode (bs : Bytes) : Option Key :=
  match bs with
  | [] => none
  | t :: rest =>
    if t = 0x01 then some .txnNext
    else if t = 0x02 then (decodeU64 rest).map fun p => .txnActive p.1
    else if t = 0x03 then (decodeU64 rest).map fun p => .txnSnapshot p.1
    else if t = 0x04 then (decodeU64 rest).map fun p => .txnUpdate p.1 p.2
    else if t = 0x05 then (decodeBytes rest).map fun p => .metadata p.1
    else if t = 0xff then
      (decodeBytes rest).bind fun p =>
        (decodeU64 p.2).map fun q => .record p.1 q.1
    else none

/-- Modelled stand-ins for the external `bincode` serializer used for MVCC
metadata payloads (fixed-width little-endian integers, 1-byte option tags).
Only the round-trip behaviour matters to the claims; `bincode` itself is an
external crate, not part of this repository. -/

def serU64 (n : Nat) : Bytes := leBytes 8 n

/-- Deserializer for `u64` payloads (stand-in for `bincode`). -/

def deserU64 (l : Bytes) : Option Nat :=
  if l.length = 8 then some (fromLe l) else none

/-- Serializer for `Option<Vec<u8>>` record values (stand-in for `bincode`):
tag byte then length-prefixed payload. -/

def serOpt : Option Bytes → Bytes
  | none => [0x00]
  | some v => 0x01 :: (leBytes 8 v.length ++ v)

/-- Deserializer for `Option<Vec<u8>>` record values (stand-in for
`bincode`); `none` is a deserialization failure. -/

def deserOpt (l : Bytes) : Option (Option Bytes) :=
  match l with
  | [] => none
  | t :: rest =>
    if t = 0 then if rest = [] then some none else none
    else if t = 1 then
      if 8 ≤ rest.length then
        if (rest.drop 8).length = fromLe (rest.take 8) then some (some (rest.drop 8))
        else none
      else none
    else none

/-- Serializer for the persisted invisible-id set (stand-in for `bincode` on
`HashSet<u64>`): length-prefixed fixed-width ids. -/

def serNatList (l : List Nat) : Bytes :=
  leBytes 8 l.length ++ (l.map fun x => leBytes 8 x).flatten

/-- Serializer for the persisted transaction mode (stand-in for `bincode`). -/

def serMode : Mode → Bytes
  | .readWrite => [0, 0, 0, 0]
  | .readOnly => [1, 0, 0, 0]
  | .snapshot v => 2 :: ([0, 0, 0] ++ leBytes 8 v)

/-- The underlying ordered KV store (`Store` trait, as implemented by the
in-memory `BTreeMap` store): an association list kept sorted strictly
ascending by key. -/

abbrev Store := List (Bytes × Bytes)

/-- Models `Store::get`. -/

def Store.get : Store → Bytes → Option Bytes
  | [], _ => none
  | (k', v') :: t, k => if k' = k then some v' else Store.get t k

/-- Models `Store::set`: sorted insertion, replacing an existing binding. -/

def Store.set : Store → Bytes → Bytes → Store
  | [], k, v => [(k, v)]
  | (k', v') :: t, k, v =>
    if bytesLt k k' then (k, v) :: (k', v') :: t
    else if k = k' then (k, v) :: t
    else (k', v') :: Store.set t k v

/-- Models `Store::delete`. -/

def Store.del : Store → Bytes → Store
  | [], _ => []
  | (k', v') :: t, k => if k' = k then Store.del t k else (k', v') :: Store.del t k

/-- A Rust `Bound<Vec<u8>>`. -/

inductive Bnd
  | incl (k : Bytes)
  | excl (k : Bytes)
  | unb
deriving DecidableEq, Repr

/-- Whether key `k` is at or above the start bound. -/

def bndLower : Bnd → Bytes → Bool
  | .incl l, k => !(bytesLt k l)
  | .excl l, k => bytesLt l k
  | .unb, _ => true

/-- Whether key `k` is at or below the end bound. -/

def bndUpper : Bnd → Bytes → Bool
  | .incl u, k => !(bytesLt u k)
  | .excl u, k => bytesLt k u
  | .unb, _ => true

/-- A pair of range bounds (start, end). -/

abbrev Bnds := Bnd × Bnd

/-- Whether key `k` lies inside the range. -/

def inBnds (b : Bnds) (k : Bytes) : Bool := bndLower b.1 k && bndUpper b.2 k

/-- Models `Store::scan`: the ordered entries of the range, ascending. On a sorted
store this is an order-preserving filter. -/

def Store.scan (s : Store) (b : Bnds) : List (Bytes × Bytes) :=
  s.filter fun p => inBnds b p.1

/-- The sortedness invariant of the store representation. -/

def sortedB : Store → Bool
  | [] => true
  | [_] => true
  | a :: b :: t => bytesLt a.1 b.1 && sortedB (b :: t)

/-- Deleting every key in a list: the folded form used by rollback. -/

def delAll (s : Store) (l : List Bytes) : Store := l.foldl Store.del s

/-- Models `std::u64::MAX`. -/

def U64MAX : Nat := 2 ^ 64 - 1

/-- A versioned snapshot (`Snapshot`): the version plus the ids of
transactions that were active when it was taken. The Rust `HashSet<u64>` is
modelled as a list of ids (only membership matters). -/

structure Snapshot where
  version : Nat
  invisible : List Nat
deriving DecidableEq, Repr

/-- Models `Snapshot::is_visible`: `version <= self.version` and not masked out. -/

def Snapshot.isVisible (sn : Snapshot) (v : Nat) : Bool :=
  decide (v ≤ sn.version) && !(sn.invisible.contains v)

/-- An MVCC transaction (`Transaction`), minus the shared store handle,
which is passed explicitly to each operation. -/

structure Txn where
  id : Nat
  mode : Mode
  snapshot : Snapshot
deriving DecidableEq, Repr

/-- Models `Iterator::min` over the invisible set. -/

def listMin : List Nat → Option Nat
  | [] => none
  | a :: t => some (match listMin t with | none => a | some m => Nat.min a m)

/-- The body of `Snapshot::take`'s scan loop: decode each key in the
`TxnActive` range and collect the ids; any other variant is corruption. -/

def takeLoop : List (Bytes × Bytes) → Except Err (List Nat)
  | [] => .ok []
  | (k, _) :: rest =>
    match Key.decode k with
    | some (Key.txnActive i) => (takeLoop rest).map fun l => i :: l
    | some _ => .error (.internal "Expected TxnActive")
    | none => .error (.value "Unable to parse MVCC key")

/-- The encoded bounds of `Snapshot::take`'s scan:
`TxnActive(0) .. TxnActive(version)`, end exclusive. -/

def takeBnds (version : Nat) : Bnds :=
  (Bnd.incl (Key.txnActive 0).encode, Bnd.excl (Key.txnActive version).encode)

/-- Models `Snapshot::take`: collect active txn ids strictly below `version` and
persist them under `TxnSnapshot(version)`. -/

def Snapshot.take (s : Store) (version : Nat) : Except Err (Snapshot × Store) :=
  match takeLoop (s.scan (takeBnds version)) with
  | .error e => .error e
  | .ok inv =>
    .ok (⟨version, inv⟩, s.set (Key.txnSnapshot version).encode (serNatList inv))

/-- Deserializer for the persisted invisible-id set (stand-in for
`bincode`): reads `count` items of eight bytes each. -/

def deserNatItems : Nat → Bytes → Option (List Nat)
  | 0, [] => some []
  | 0, _ :: _ => none
  | n + 1, l =>
    if 8 ≤ l.length then
      (deserNatItems n (l.drop 8)).map fun r => fromLe (l.take 8) :: r
    else none

/-- Deserializer entry point for the invisible-id set. -/

def deserNatList (l : Bytes) : Option (List Nat) :=
  if 8 ≤ l.length then deserNatItems (fromLe (l.take 8)) (l.drop 8) else none

/-- Models `Snapshot::restore`: look up `TxnSnapshot(version)`, failing with the
exact `Value` message from the source when it is absent. -/

def Snapshot.restore (s : Store) (version : Nat) : Except Err Snapshot :=
  match s.get (Key.txnSnapshot version).encode with
  | some v =>
    match deserNatList v with
    | some inv => .ok ⟨version, inv⟩
    | none => .error (.value "deserialize failure")
  | none => .error (.value ("Snapshot not found for version " ++ toString version))

/-- Models `Transaction::begin`'s id allocation: read `TxnNext` or default to 1. -/

def beginId (s : Store) : Except Err Nat :=
  match s.get Key.txnNext.encode with
  | some v =>
    match deserU64 v with
    | some n => .ok n
    | none => .error (.value "deserialize failure")
  | none => .ok 1

/-- Models `Transaction::begin`: allocate an id, bump the counter, write the active
marker, take a snapshot (always), then for `Snapshot{version}` mode replace it
by restoring the persisted snapshot at `version`. The store resulting from
each step is returned even on error, since the Rust session writes are not
undone when a later step fails. -/

def Txn.begin (mode : Mode) (s : Store) : Except Err Txn × Store :=
  match beginId s with
  | .error e => (.error e, s)
  | .ok id =>
    let s1 := s.set Key.txnNext.encode (serU64 (id + 1))
    let s2 := s1.set (Key.txnActive id).encode (serMode mode)
    match Snapshot.take s2 id with
    | .error e => (.error e, s2)
    | .ok (snap, s3) =>
      match mode with
      | .snapshot version =>
        match Snapshot.restore s3 version with
        | .ok snap2 => (.ok ⟨id, mode, snap2⟩, s3)
        | .error e => (.error e, s3)
      | _ => (.ok ⟨id, mode, snap⟩, s3)

/-- Models `Transaction::commit`: drop the active marker (flush is a no-op here). -/

def Txn.commit (t : Txn) (s : Store) : Except Err Unit × Store :=
  (.ok (), s.del (Key.txnActive t.id).encode)

/-- The body of `Transaction::rollback`'s scan loop: each key in the
`TxnUpdate(id)` range contributes its decoded record key and its own encoded
key to the deletion list, in scan order. -/

def rollbackLoop : List (Bytes × Bytes) → Except Err (List Bytes)
  | [] => .ok []
  | (k, _) :: rest =>
    match Key.decode k with
    | some (Key.txnUpdate _ updated) => (rollbackLoop rest).map fun l => updated :: k :: l
    | some _ => .error (.internal "Expected TxnUpdate")
    | none => .error (.value "Unable to parse MVCC key")

/-- The encoded bounds of `Transaction::rollback`'s scan:
`TxnUpdate(id, []) .. TxnUpdate(id + 1, [])`, end exclusive. -/

def rollbackBnds (t : Txn) : Bnds :=
  (Bnd.incl (Key.txnUpdate t.id []).encode, Bnd.excl (Key.txnUpdate (t.id + 1) []).encode)

/-- Models `Transaction::rollback`: for mutable transactions, delete every record
reachable from a `TxnUpdate(id, _)` marker together with the markers, then
delete the active marker. -/

def Txn.rollback (t : Txn) (s : Store) : Except Err Unit × Store :=
  if t.mode.mutable then
    match rollbackLoop (s.scan (rollbackBnds t)) with
    | .error e => (.error e, s)
    | .ok keys => (.ok (), (delAll s keys).del (Key.txnActive t.id).encode)
  else (.ok (), s.del (Key.txnActive t.id).encode)

/-- The body of `Transaction::get`'s reverse scan loop: return the first
version visible to the snapshot. -/

def getLoop (sn : Snapshot) : List (Bytes × Bytes) → Except Err (Option Bytes)
  | [] => .ok none
  | (k, v) :: rest =>
    match Key.decode k with
    | some (Key.record _ version) =>
      if sn.isVisible version then
        match deserOpt v with
        | some val => .ok val
        | none => .error (.value "deserialize failure")
      else getLoop sn rest
    | some _ => .error (.internal "Expected Txn::Record")
    | none => .error (.value "Unable to parse MVCC key")

/-- Models `Transaction::get`: reverse scan `Record(k, 0) ..= Record(k, self.id)`. -/

def Txn.get (t : Txn) (key : Bytes) (s : Store) : Except Err (Option Bytes) :=
  getLoop t.snapshot
    ((s.scan (Bnd.incl (Key.record key 0).encode,
      Bnd.incl (Key.record key t.id).encode)).reverse)

/-- The conflict-scan start version used by `Transaction::write`:
`min(invisible)` or `self.id + 1` when the invisible set is empty. -/

def conflictMin (t : Txn) : Nat := (listMin t.snapshot.invisible).getD (t.id + 1)

/-- The encoded bounds of `Transaction::write`'s conflict scan:
`Record(k, min) ..= Record(k, u64::MAX)`. -/

def writeBnds (t : Txn) (key : Bytes) : Bnds :=
  (Bnd.incl (Key.record key (conflictMin t)).encode,
   Bnd.incl (Key.record key U64MAX).encode)

/-- The body of `Transaction::write`'s reverse conflict-check loop: fail with
`Serialization` at the first version invisible to the snapshot. -/

def writeCheck (sn : Snapshot) : List (Bytes × Bytes) → Except Err Unit
  | [] => .ok ()
  | (k, _) :: rest =>
    match Key.decode k with
    | some (Key.record _ version) =>
      if sn.isVisible version then writeCheck sn rest
      else .error .serialization
    | some _ => .error (.internal "Expected Txn::Record")
    | none => .error (.value "Unable to parse MVCC key")

/-- Models `Transaction::write`: mode check, conflict check, then write the
`TxnUpdate` rollback marker and the versioned record. On error the store is
returned unchanged (the Rust code errors before any `set`). -/

def Txn.write (t : Txn) (key : Bytes) (value : Option Bytes) (s : Store) :
    Except Err Unit × Store :=
  if t.mode.mutable = false then (.error .readOnly, s)
  else
    match writeCheck t.snapshot ((s.scan (writeBnds t key)).reverse) with
    | .error e => (.error e, s)
    | .ok _ =>
      let rkey := (Key.record key t.id).encode
      let ukey := (Key.txnUpdate t.id rkey).encode
      (.ok (), (s.set ukey []).set rkey (serOpt value))

/-- Models `Transaction::set`. -/

def Txn.set (t : Txn) (key v : Bytes) (s : Store) : Except Err Unit × Store :=
  t.write key (some v) s

/-- Models `Transaction::delete`: a tombstone write. -/

def Txn.del (t : Txn) (key : Bytes) (s : Store) : Except Err Unit × Store :=
  t.write key none s

/-- Models `MVCC::get_metadata`. NOTE: faithful to the source, which reads the raw
caller key directly from the store (`session.get(key)`), not the encoded
`Key::Metadata` form. -/

def getMetadata (s : Store) (key : Bytes) : Option Bytes := s.get key

/-- Models `MVCC::set_metadata`. NOTE: faithful to the source, which writes the raw
caller key directly to the store (`session.set(key, value)`), not the encoded
`Key::Metadata` form. -/

def setMetadata (s : Store) (key v : Bytes) : Store := s.set key v

/-- The state of a `Scan` iterator: snapshot, remaining encoded bounds, the
forward side's stashed candidate and the reverse side's last returned key. -/

structure ScanState where
  snapshot : Snapshot
  bounds : Bnds
  nextCandidate : Option (Bytes × Option Bytes)
  nextBackReturned : Option Bytes
deriving DecidableEq, Repr

/-- Models `Scan::new`: translate user-key bounds into encoded record bounds. -/

def Scan.new (sn : Snapshot) (b : Bnds) : ScanState :=
  let start := match b.1 with
    | .excl k => Bnd.excl (Key.record k U64MAX).encode
    | .incl k => Bnd.incl (Key.record k 0).encode
    | .unb => Bnd.incl (Key.record [] 0).encode
  let stop := match b.2 with
    | .excl k => Bnd.excl (Key.record k 0).encode
    | .incl k => Bnd.incl (Key.record k U64MAX).encode
    | .unb => Bnd.unb
  ⟨sn, (start, stop), none, none⟩

/-- Models `Transaction::scan`. -/

def Txn.scan (t : Txn) (b : Bnds) : ScanState := Scan.new t.snapshot b

/-- The bound-successor loop of `Transaction::scan_prefix`, acting on the
reversed prefix: zero trailing `0xff` bytes and increment the first other
byte; `none` when every byte is `0xff`. -/

def bumpRev : List Nat → Option (List Nat)
  | [] => none
  | b :: rest =>
    if b = 0xff then (bumpRev rest).map fun r => 0x00 :: r
    else some ((b + 1) :: rest)

/-- The exclusive end bound computed by `Transaction::scan_prefix`. -/

def pfxEnd (p : Bytes) : Option Bytes := (bumpRev p.reverse).map List.reverse

/-- Models `Transaction::scan_prefix`: reject empty and all-`0xff` prefixes with
`Internal` errors, otherwise scan `p .. pfxEnd p` over user keys. -/

def Txn.scanPfx (t : Txn) (p : Bytes) : Except Err ScanState :=
  if p = [] then .error (.internal "Scan prefix cannot be empty")
  else
    match pfxEnd p with
    | none => .error (.internal "Invalid prefix scan range")
    | some e => .ok (Scan.new t.snapshot (Bnd.incl p, Bnd.excl e))

/-- The loop of `Scan::try_next` over the materialized remaining range:
advance the start bound past each raw key, skip invisible versions, stash the
newest visible version per key and emit the previous key's candidate when the
user key changes; at the end of the range emit the stashed candidate if its
value is not a tombstone. -/

def tryNextLoop (st : ScanState) :
    List (Bytes × Bytes) → Except Err (Option (Bytes × Bytes) × ScanState)
  | [] =>
    match st.nextCandidate with
    | some (k, some v) => .ok (some (k, v), { st with nextCandidate := none })
    | _ => .ok (none, st)
  | (k, v) :: rest =>
    let st1 := { st with bounds := (Bnd.excl k, st.bounds.2) }
    match Key.decode k with
    | some (Key.record key version) =>
      if st1.snapshot.isVisible version = false then tryNextLoop st1 rest
      else
        let ret : Option (Bytes × Bytes) :=
          match st1.nextCandidate with
          | some (ck, some cv) => if ck ≠ key then some (ck, cv) else none
          | _ => none
        match deserOpt v with
        | none => .error (.value "deserialize failure")
        | some dv =>
          let st2 := { st1 with nextCandidate := some (key, dv) }
          match ret with
          | some r => .ok (some r, st2)
          | none => tryNextLoop st2 rest
    | some _ => .error (.internal "Expected Record")
    | none => .error (.value "Unable to parse MVCC key")

/-- Models `Scan::try_next`: one forward step from the current bounds. -/

def tryNext (st : ScanState) (s : Store) :
    Except Err (Option (Bytes × Bytes) × ScanState) :=
  tryNextLoop st (s.scan st.bounds)

/-- The loop of `Scan::try_next_back` over the reversed remaining range:
advance the end bound past each raw key, skip invisible versions and older
versions of already returned keys, and emit the first non-tombstone latest
version. -/

def tryNextBackLoop (st : ScanState) :
    List (Bytes × Bytes) → Except Err (Option (Bytes × Bytes) × ScanState)
  | [] => .ok (none, st)
  | (k, v) :: rest =>
    let st1 := { st with bounds := (st.bounds.1, Bnd.excl k) }
    match Key.decode k with
    | some (Key.record key version) =>
      if st1.snapshot.isVisible version = false then tryNextBackLoop st1 rest
      else if st1.nextBackReturned = some key then tryNextBackLoop st1 rest
      else
        let st2 := { st1 with nextBackReturned := some key }
        match deserOpt v with
        | none => .error (.value "deserialize failure")
        | some (some value) => .ok (some (key, value), st2)
        | some none => tryNextBackLoop st2 rest
    | some _ => .error (.internal "Expected Record")
    | none => .error (.value "Unable to parse MVCC key")

/-- Models `Scan::try_next_back`: one reverse step from the current bounds. -/

def tryNextBack (st : ScanState) (s : Store) :
    Except Err (Option (Bytes × Bytes) × ScanState) :=
  tryNextBackLoop st (s.scan st.bounds).reverse

/-- Result component of a scan step. -/

def stepResult : Except Err (Option (Bytes × Bytes) × ScanState) → Option (Bytes × Bytes)
  | .ok (r, _) => r
  | .error _ => none

/-- State component of a scan step (with a fallback for the error case). -/

def stepState (r : Except Err (Option (Bytes × Bytes) × ScanState)) (dflt : ScanState) :
    ScanState :=
  match r with
  | .ok (_, st) => st
  | .error _ => dflt

/-- Whether an error is the `Value` variant. -/

def errIsValue : Err → Bool
  | .value _ => true
  | _ => false

/-- Whether a `scan_prefix` result failed with a `Value` error. -/

def scanPfxIsValueErr : Except Err ScanState → Bool
  | .error e => errIsValue e
  | .ok _ => false

/-- Fixture: a store holding committed records `a@1`, `b@1`, `b@2`
(user keys `a = [97]`, `b = [98]`), all with non-tombstone values. -/

def scanBugStore : Store :=
  [((Key.record [97] 1).encode, serOpt (some [1])),
   ((Key.record [98] 1).encode, serOpt (some [1])),
   ((Key.record [98] 2).encode, serOpt (some [2]))]

/-- Fixture: a reader transaction that sees every version of
`scanBugStore`. -/

def scanBugTxn : Txn := ⟨3, .readWrite, ⟨3, []⟩⟩

/-- Fixture: a full-range scan over `scanBugStore`. -/

def scanBugSt0 : ScanState := scanBugTxn.scan (Bnd.unb, Bnd.unb)

/-- Fixture: first forward step. -/

def scanBugStep1 : Except Err (Option (Bytes × Bytes) × ScanState) :=
  tryNext scanBugSt0 scanBugStore

/-- Fixture: state after the first forward step. -/

def scanBugSt1 : ScanState := stepState scanBugStep1 scanBugSt0

/-- Fixture: reverse step after the forward step. -/

def scanBugStep2 : Except Err (Option (Bytes × Bytes) × ScanState) :=
  tryNextBack scanBugSt1 scanBugStore

/-- Fixture: state after the reverse step. -/

def scanBugSt2 : ScanState := stepState scanBugStep2 scanBugSt0

/-- Fixture: second forward step. -/

def scanBugStep3 : Except Err (Option (Bytes × Bytes) × ScanState) :=
  tryNext scanBugSt2 scanBugStore

/-- Fixture: a store produced by `set_metadata` with caller key `[0x01]`. -/

def metaStore : Store := setMetadata [] [0x01] [0x07]

/-- Fixture: a store with one record under user key `[0x02]`. -/

def pfxBugStore : Store := [((Key.record [0x02] 1).encode, serOpt (some [0x42]))]

/-- Fixture: a reader transaction for the prefix-scan traces. -/

def pfxBugTxn : Txn := ⟨2, .readWrite, ⟨2, []⟩⟩

/-- Extract the scan state of a successful `scan_prefix`, with a fallback. -/

def scanOrDefault : Except Err ScanState → ScanState
  | .ok st => st
  | .error _ => Scan.new ⟨0, []⟩ (Bnd.unb, Bnd.unb)

/-- Fixture: the scan produced by `scan_prefix([0x01, 0xff])`. -/

def pfxBugSt : ScanState := scanOrDefault (pfxBugTxn.scanPfx [0x01, 0xff])

/-- Fixture for C1: a committed record at version 3 invisible to a
transaction with id 2 whose snapshot is empty. -/

def writeBugStore : Store := [((Key.record [107] 3).encode, serOpt (some [3]))]

/-- Fixture for C1: the blocked writer. -/

def writeTxn2 : Txn := ⟨2, .readWrite, ⟨2, []⟩⟩

/-- Fixture for C3: transaction 1 in `ReadWrite` mode. -/

def rbTxn : Txn := ⟨1, .readWrite, ⟨1, []⟩⟩

/-- Fixture for C3: a store holding transaction 1's active marker, one
record under user key `[5]`, and its rollback marker. -/

def rbStore : Store :=
  [((Key.txnActive 1).encode, serMode .readWrite),
   ((Key.txnUpdate 1 (Key.record [5] 1).encode).encode, []),
   ((Key.record [5] 1).encode, serOpt (some [9]))]

/-- Fixture for C6: transaction 1 with its own fresh snapshot. -/

def wTxn : Txn := ⟨1, .readWrite, ⟨1, []⟩⟩

/-- Fixture for C6: the store after transaction 1 sets key `[7]`. -/

def wStoreSet : Store := (wTxn.set [7] [9] []).2

/-- Fixture for C6: the store after transaction 1 deletes key `[7]`. -/

def wStoreDel : Store := (wTxn.del [7] []).2

/-- Witness for C9: beginning a `Snapshot{version: 5}` transaction on the
empty store fails with the exact message while consuming id 1 and leaving
its markers behind. -/

theorem bytesLt_irrefl (a : Bytes) : bytesLt a a = false := by
  induction a with
  | nil => rfl
  | cons x xs ih => simp [bytesLt, ih]

theorem bytesLt_asymm {a b : Bytes} (h : bytesLt a b = true) :
    bytesLt b a = false := by
  induction a generalizing b with
  | nil =>
    cases b with
    | nil => simp [bytesLt] at h
    | cons y ys => simp [bytesLt]
  | cons x xs ih =>
    cases b with
    | nil => simp [bytesLt] at h
    | cons y ys =>
      simp only [bytesLt, Bool.or_eq_true, Bool.and_eq_true, beq_iff_eq,
        decide_eq_true_eq] at h
      rcases h with h | ⟨rfl, h⟩
      · have h1 : ¬ y < x := by omega
        have h2 : (y == x) = false := by simp; omega
        simp [bytesLt, h1, h2]
      · simp [bytesLt, ih h]

theorem bytesLt_trans {a b c : Bytes} (hab : bytesLt a b = true)
    (hbc : bytesLt b c = true) : bytesLt a c = true := by
  induction a generalizing b c with
  | nil =>
    cases b with
    | nil => simp [bytesLt] at hab
    | cons y ys =>
      cases c with
      | nil => simp [bytesLt] at hbc
      | cons z zs => simp [bytesLt]
  | cons x xs ih =>
    cases b with
    | nil => simp [bytesLt] at hab
    | cons y ys =>
      cases c with
      | nil => simp [bytesLt] at hbc
      | cons z zs =>
        simp only [bytesLt, Bool.or_eq_true, Bool.and_eq_true, beq_iff_eq,
          decide_eq_true_eq] at hab hbc ⊢
        rcases hab with hab | ⟨rfl, hab⟩ <;> rcases hbc with hbc | ⟨rfl, hbc⟩
        · exact Or.inl (by omega)
        · exact Or.inl hab
        · exact Or.inl hbc
        · exact Or.inr ⟨rfl, ih hab hbc⟩

theorem bytesLt_total (a b : Bytes) :
    bytesLt a b = true ∨ a = b ∨ bytesLt b a = true := by
  induction a generalizing b with
  | nil =>
    cases b with
    | nil => exact Or.inr (Or.inl rfl)
    | cons y ys => exact Or.inl (by simp [bytesLt])
  | cons x xs ih =>
    cases b with
    | nil => exact Or.inr (Or.inr (by simp [bytesLt]))
    | cons y ys =>
      rcases Nat.lt_trichotomy x y with h | rfl | h
      · exact Or.inl (by simp [bytesLt, h])
      · rcases ih ys with h | rfl | h
        · exact Or.inl (by simp [bytesLt, h])
        · exact Or.inr (Or.inl rfl)
        · exact Or.inr (Or.inr (by simp [bytesLt, h]))
      · exact Or.inr (Or.inr (by simp [bytesLt, h]))

/-- Comparison under a common left factor reduces to the suffixes. -/

theorem bytesLt_append_left (p x y : Bytes) :
    bytesLt (p ++ x) (p ++ y) = bytesLt x y := by
  induction p with
  | nil => rfl
  | cons a as ih => simp [bytesLt, ih]

/-- A list is never lexicographically below one of its own prefixes. -/

theorem bytesLt_append_self (l x : Bytes) : bytesLt (l ++ x) l = false := by
  induction l with
  | nil => cases x <;> rfl
  | cons a as ih => simp [bytesLt, ih]

/-- Strict comparison of equal-length lists is preserved by appending
arbitrary suffixes (they differ before either suffix starts). -/

theorem bytesLt_append_of_eq_length {a b : Bytes} (hlen : a.length = b.length)
    (h : bytesLt a b = true) (x y : Bytes) :
    bytesLt (a ++ x) (b ++ y) = true := by
  induction a generalizing b with
  | nil =>
    cases b with
    | nil => simp [bytesLt] at h
    | cons y ys => simp at hlen
  | cons c cs ih =>
    cases b with
    | nil => simp at hlen
    | cons d ds =>
      simp only [bytesLt, Bool.or_eq_true, Bool.and_eq_true, beq_iff_eq,
        decide_eq_true_eq] at h ⊢
      rcases h with h | ⟨rfl, h⟩
      · exact Or.inl h
      · exact Or.inr ⟨rfl, ih (by simpa using hlen) h⟩

theorem beBytes_length (n v : Nat) : (beBytes n v).length = n := by
  induction n generalizing v with
  | zero => rfl
  | succ n ih => simp [beBytes, ih]

theorem fromBe_beBytes {n v : Nat} (h : v < 256 ^ n) :
    fromBe (beBytes n v) = v := by
  induction n generalizing v with
  | zero =>
    have hv : v = 0 := by simpa using h
    subst hv; rfl
  | succ n ih =>
    have hmod : v % 256 ^ n < 256 ^ n := Nat.mod_lt _ (Nat.pos_pow_of_pos n (by norm_num))
    simp [beBytes, fromBe, beBytes_length, ih hmod]
    linarith [Nat.div_add_mod v (256 ^ n)]

theorem beBytes_lt_of_lt {n a b : Nat} (hb : b < 256 ^ n) (hab : a < b) :
    bytesLt (beBytes n a) (beBytes n b) = true := by
  induction n generalizing a b with
  | zero => omega
  | succ n ih =>
    have hq : a / 256 ^ n ≤ b / 256 ^ n := Nat.div_le_div_right (Nat.le_of_lt hab)
    rcases Nat.lt_or_ge (a / 256 ^ n) (b / 256 ^ n) with h | h
    · simp [beBytes, bytesLt, h]
    · have hq' : a / 256 ^ n = b / 256 ^ n := Nat.le_antisymm hq h
      have hpos : 0 < 256 ^ n := Nat.pos_pow_of_pos n (by norm_num)
      have hmod : a % 256 ^ n < b % 256 ^ n := by
        have ha := Nat.div_add_mod a (256 ^ n)
        have hbb := Nat.div_add_mod b (256 ^ n)
        rw [hq'] at ha
        omega
      have hbmod : b % 256 ^ n < 256 ^ n := Nat.mod_lt _ hpos
      simp [beBytes, bytesLt, hq', ih hbmod hmod]

theorem beBytes_lt_iff {n a b : Nat} (ha : a < 256 ^ n) (hb : b < 256 ^ n) :
    bytesLt (beBytes n a) (beBytes n b) = true ↔ a < b := by
  constructor
  · intro h
    rcases Nat.lt_trichotomy a b with h' | rfl | h'
    · exact h'
    · rw [bytesLt_irrefl] at h
      exact absurd h (by simp)
    · rw [bytesLt_asymm (beBytes_lt_of_lt ha h')] at h
      exact absurd h (by simp)
  · exact beBytes_lt_of_lt hb

theorem beBytes_inj {n a b : Nat} (ha : a < 256 ^ n) (hb : b < 256 ^ n)
    (h : beBytes n a = beBytes n b) : a = b := by
  have := fromBe_beBytes ha
  have := fromBe_beBytes hb
  rw [h] at *
  omega

theorem fromLe_leBytes {n v : Nat} (h : v < 256 ^ n) :
    fromLe (leBytes n v) = v := by
  induction n generalizing v with
  | zero =>
    have hv : v = 0 := by simpa using h
    subst hv; rfl
  | succ n ih =>
    have hdiv : v / 256 < 256 ^ n := by
      rw [Nat.div_lt_iff_lt_mul (by norm_num)]
      calc v < 256 ^ (n + 1) := h
        _ = 256 ^ n * 256 := by ring
    simp [leBytes, fromLe, ih hdiv]
    omega

theorem decodeBytes_escape (k rest : Bytes) :
    decodeBytes (escape k ++ rest) = some (k, rest) := by
  induction k with
  | nil => simp [escape, decodeBytes]
  | cons b bs ih =>
    by_cases hb : b = 0
    · subst hb
      simp [escape, decodeBytes, ih]
    · have hesc : escape (b :: bs) ++ rest = b :: (escape bs ++ rest) := by
        simp [escape, hb]
      rw [hesc, decodeBytes.eq_def]
      simp [hb, ih]

/-- Order preservation of the escape encoding, strengthened to arbitrary
appended suffixes: if `a < b` then `escape a ++ x < escape b ++ y`. -/

theorem escape_lt_append {a b : Bytes} (h : bytesLt a b = true) (x y : Bytes) :
    bytesLt (escape a ++ x) (escape b ++ y) = true := by
  induction a generalizing b with
  | nil =>
    cases b with
    | nil => simp [bytesLt] at h
    | cons c cs =>
      by_cases hc : c = 0
      · subst hc; simp [escape, bytesLt]
      · simp [escape, hc, bytesLt, Nat.pos_of_ne_zero hc]
  | cons c cs ih =>
    cases b with
    | nil => simp [bytesLt] at h
    | cons d ds =>
      simp only [bytesLt, Bool.or_eq_true, Bool.and_eq_true, beq_iff_eq,
        decide_eq_true_eq] at h
      rcases h with h | ⟨rfl, h⟩
      · have hd : d ≠ 0 := by omega
        by_cases hc : c = 0
        · subst hc
          simp [escape, hd, bytesLt, Nat.pos_of_ne_zero hd]
        · simp [escape, hc, hd, bytesLt, h]
      · by_cases hc : c = 0
        · subst hc
          simp [escape, bytesLt, ih h]
        · simp [escape, hc, bytesLt, ih h]

/-- For `a < b`, the encoding of `a` is never a prefix of the encoding of
`b`: the terminator/escape discipline keeps encodings prefix-free. -/

theorem escape_not_isPrefixOf {a b : Bytes} (h : bytesLt a b = true) :
    (escape a).isPrefixOf (escape b) = false := by
  induction a generalizing b with
  | nil =>
    cases b with
    | nil => simp [bytesLt] at h
    | cons c cs =>
      by_cases hc : c = 0
      · subst hc; simp [escape, List.isPrefixOf]
      · simp [escape, hc, List.isPrefixOf, Ne.symm hc]
  | cons c cs ih =>
    cases b with
    | nil => simp [bytesLt] at h
    | cons d ds =>
      simp only [bytesLt, Bool.or_eq_true, Bool.and_eq_true, beq_iff_eq,
        decide_eq_true_eq] at h
      rcases h with h | ⟨rfl, h⟩
      · have hd : d ≠ 0 := by omega
        by_cases hc : c = 0
        · subst hc
          simp [escape, hd, List.isPrefixOf, Ne.symm hd]
        · have : c ≠ d := by omega
          simp [escape, hc, hd, List.isPrefixOf, this]
      · by_cases hc : c = 0
        · subst hc
          simp [escape, List.isPrefixOf, ih h]
        · simp [escape, hc, List.isPrefixOf, ih h]

theorem bytesLt_cons (x : Nat) (l1 l2 : Bytes) :
    bytesLt (x :: l1) (x :: l2) = bytesLt l1 l2 := by
  simp [bytesLt]

theorem leBytes_length (n v : Nat) : (leBytes n v).length = n := by
  induction n generalizing v with
  | zero => rfl
  | succ n ih => simp [leBytes, ih]

theorem pow64_eq : (2 : Nat) ^ 64 = 256 ^ 8 := by norm_num

theorem decodeU64_beBytes {v : Nat} (h : v < 2 ^ 64) (rest : Bytes) :
    decodeU64 (beBytes 8 v ++ rest) = some (v, rest) := by
  have hlen : (beBytes 8 v).length = 8 := beBytes_length 8 v
  have hv : v < 256 ^ 8 := by rw [← pow64_eq]; exact h
  simp [decodeU64, hlen, List.take_append_eq_append_take, List.drop_append_eq_append_drop,
    List.take_of_length_le (Nat.le_of_eq hlen), List.drop_of_length_le (Nat.le_of_eq hlen)]
  exact fromBe_beBytes hv

/-- Round trip: decoding an encoded well-formed key recovers the key. -/

theorem Key.decode_encode (k : Key) (h : k.wf) : Key.decode k.encode = some k := by
  cases k with
  | txnNext => rfl
  | txnActive id =>
    have := decodeU64_beBytes (v := id) h []
    simp at this
    simp [Key.encode, Key.decode, this]
  | txnSnapshot v =>
    have := decodeU64_beBytes (v := v) h []
    simp at this
    simp [Key.encode, Key.decode, this]
  | txnUpdate id key =>
    simp [Key.encode, Key.decode, decodeU64_beBytes h]
  | record key v =>
    have := decodeU64_beBytes (v := v) h []
    simp at this
    simp [Key.encode, Key.decode, decodeBytes_escape, this]
  | metadata key =>
    have := decodeBytes_escape key []
    simp at this
    simp [Key.encode, Key.decode, this]

/-- Encoded record keys compare exactly as `(user_key, version)` pairs:
lexicographically on the user key, then numerically on the version. -/

theorem record_encode_lt_iff (k1 k2 : Bytes) {v1 v2 : Nat}
    (h1 : v1 < 2 ^ 64) (h2 : v2 < 2 ^ 64) :
    bytesLt (Key.record k1 v1).encode (Key.record k2 v2).encode = true ↔
      (bytesLt k1 k2 = true ∨ (k1 = k2 ∧ v1 < v2)) := by
  have h1' : v1 < 256 ^ 8 := by rw [← pow64_eq]; exact h1
  have h2' : v2 < 256 ^ 8 := by rw [← pow64_eq]; exact h2
  simp only [Key.encode, bytesLt_cons]
  constructor
  · intro h
    rcases bytesLt_total k1 k2 with hk | rfl | hk
    · exact Or.inl hk
    · rw [bytesLt_append_left] at h
      exact Or.inr ⟨rfl, (beBytes_lt_iff h1' h2').mp h⟩
    · exfalso
      have := escape_lt_append hk (beBytes 8 v2) (beBytes 8 v1)
      rw [bytesLt_asymm this] at h
      exact absurd h (by simp)
  · rintro (hk | ⟨rfl, hv⟩)
    · exact escape_lt_append hk _ _
    · rw [bytesLt_append_left]
      exact (beBytes_lt_iff h1' h2').mpr hv

theorem deserU64_serU64 {n : Nat} (h : n < 2 ^ 64) : deserU64 (serU64 n) = some n := by
  have h' : n < 256 ^ 8 := by rw [← pow64_eq]; exact h
  simp [deserU64, serU64, leBytes_length, fromLe_leBytes h']

theorem deserOpt_serOpt {v : Option Bytes}
    (h : ∀ b, v = some b → b.length < 2 ^ 64) : deserOpt (serOpt v) = some v := by
  cases v with
  | none => rfl
  | some b =>
    have hb : b.length < 256 ^ 8 := by rw [← pow64_eq]; exact h b rfl
    have hlen : (leBytes 8 b.length).length = 8 := leBytes_length 8 _
    have hc : 8 ≤ (leBytes 8 b.length ++ b).length := by simp [hlen]
    simp only [serOpt, deserOpt]
    rw [if_neg (by norm_num), if_pos (by norm_num), if_pos hc]
    rw [List.take_append_eq_append_take, List.drop_append_eq_append_drop, hlen]
    simp [List.take_of_length_le (Nat.le_of_eq hlen),
      List.drop_of_length_le (Nat.le_of_eq hlen), fromLe_leBytes hb]

theorem sortedB_tail {a : Bytes × Bytes} {t : Store} (h : sortedB (a :: t) = true) :
    sortedB t = true := by
  cases t with
  | nil => rfl
  | cons b t' =>
    simp only [sortedB, Bool.and_eq_true] at h
    exact h.2

theorem sortedB_cons_lt {a : Bytes × Bytes} {t : Store} (h : sortedB (a :: t) = true) :
    ∀ p ∈ t, bytesLt a.1 p.1 = true := by
  induction t generalizing a with
  | nil => intro p hp; cases hp
  | cons b t' ih =>
    intro p hp
    simp only [sortedB, Bool.and_eq_true] at h
    rcases List.mem_cons.mp hp with rfl | hp'
    · exact h.1
    · exact bytesLt_trans h.1 (ih h.2 p hp')

theorem Store.set_cons (a : Bytes × Bytes) (t : Store) (k v : Bytes) :
    Store.set (a :: t) k v =
      if bytesLt k a.1 then (k, v) :: a :: t
      else if k = a.1 then (k, v) :: t
      else a :: Store.set t k v := rfl

theorem Store.get_set_self (s : Store) (k v : Bytes) : (s.set k v).get k = some v := by
  induction s with
  | nil => simp [Store.set, Store.get]
  | cons a t ih =>
    rw [Store.set_cons]
    by_cases h1 : bytesLt k a.1 = true
    · rw [if_pos h1]; simp [Store.get]
    · rw [if_neg h1]
      by_cases h2 : k = a.1
      · rw [if_pos h2]; simp [Store.get]
      · rw [if_neg h2]
        simp [Store.get, Ne.symm h2, ih]

theorem Store.get_set_ne (s : Store) (k v k' : Bytes) (h : k' ≠ k) :
    (s.set k v).get k' = s.get k' := by
  induction s with
  | nil => simp [Store.set, Store.get, Ne.symm h]
  | cons a t ih =>
    rw [Store.set_cons]
    by_cases h1 : bytesLt k a.1 = true
    · rw [if_pos h1]; simp [Store.get, Ne.symm h]
    · rw [if_neg h1]
      by_cases h2 : k = a.1
      · rw [if_pos h2]
        have hne : a.1 ≠ k' := fun hh => h (h2.trans hh).symm
        simp [Store.get, Ne.symm h, hne]
      · rw [if_neg h2]
        simp [Store.get, ih]

theorem Store.mem_set_self (s : Store) (k v : Bytes) : (k, v) ∈ s.set k v := by
  induction s with
  | nil => simp [Store.set]
  | cons a t ih =>
    rw [Store.set_cons]
    by_cases h1 : bytesLt k a.1 = true
    · rw [if_pos h1]; simp
    · rw [if_neg h1]
      by_cases h2 : k = a.1
      · rw [if_pos h2]; simp
      · rw [if_neg h2]; simp [ih]

theorem Store.mem_set_weak {s : Store} {k v : Bytes} {p : Bytes × Bytes}
    (h : p ∈ s.set k v) : p.1 = k ∨ p ∈ s := by
  induction s with
  | nil =>
    simp [Store.set] at h
    exact Or.inl (by rw [h])
  | cons a t ih =>
    rw [Store.set_cons] at h
    by_cases h1 : bytesLt k a.1 = true
    · rw [if_pos h1] at h
      rcases List.mem_cons.mp h with rfl | h' <;> simp_all
    · rw [if_neg h1] at h
      by_cases h2 : k = a.1
      · rw [if_pos h2] at h
        rcases List.mem_cons.mp h with rfl | h' <;> simp_all
      · rw [if_neg h2] at h
        rcases List.mem_cons.mp h with rfl | h'
        · simp
        · rcases ih h' with h'' | h'' <;> simp_all

theorem sortedB_cons_intro (a : Bytes × Bytes) (t : Store) (ht : sortedB t = true)
    (hlt : ∀ p ∈ t, bytesLt a.1 p.1 = true) : sortedB (a :: t) = true := by
  cases t with
  | nil => rfl
  | cons b t' =>
    simp only [sortedB, Bool.and_eq_true]
    exact ⟨hlt b (by simp), ht⟩

theorem sortedB_set {s : Store} (k v : Bytes) (h : sortedB s = true) :
    sortedB (s.set k v) = true := by
  induction s with
  | nil => rfl
  | cons a t ih =>
    rw [Store.set_cons]
    by_cases h1 : bytesLt k a.1 = true
    · rw [if_pos h1]
      exact sortedB_cons_intro _ _ h fun p hp => by
        rcases List.mem_cons.mp hp with rfl | hp'
        · exact h1
        · exact bytesLt_trans h1 (sortedB_cons_lt h p hp')
    · rw [if_neg h1]
      by_cases h2 : k = a.1
      · rw [if_pos h2]
        exact sortedB_cons_intro _ _ (sortedB_tail h) fun p hp => by
          show bytesLt k p.1 = true
          rw [h2]
          exact sortedB_cons_lt h p hp
      · rw [if_neg h2]
        refine sortedB_cons_intro _ _ (ih (sortedB_tail h)) fun p hp => ?_
        rcases Store.mem_set_weak hp with h3 | h3
        · rw [h3]
          rcases bytesLt_total k a.1 with h4 | h4 | h4
          · exact absurd h4 (by simp [h1])
          · exact absurd h4 h2
          · exact h4
        · exact sortedB_cons_lt h p h3

theorem Store.get_del_self (s : Store) (k : Bytes) : (s.del k).get k = none := by
  induction s with
  | nil => rfl
  | cons a t ih =>
    by_cases h1 : a.1 = k
    · simp [Store.del, h1, ih]
    · simp [Store.del, h1, Store.get, ih]

theorem Store.get_del_ne (s : Store) (k k' : Bytes) (h : k' ≠ k) :
    (s.del k).get k' = s.get k' := by
  induction s with
  | nil => rfl
  | cons a t ih =>
    by_cases h1 : a.1 = k
    · have hne : a.1 ≠ k' := fun hh => h (hh.symm.trans h1)
      rw [show Store.del (a :: t) k = Store.del t k by simp [Store.del, h1], ih]
      rw [show Store.get (a :: t) k' = Store.get t k' by simp [Store.get, hne]]
    · rw [show Store.del (a :: t) k = a :: Store.del t k by simp [Store.del, h1]]
      by_cases h2 : a.1 = k'
      · simp [Store.get, h2]
      · simp [Store.get, h2, ih]

theorem Store.get_delAll_none {l : List Bytes} {k : Bytes} {s : Store}
    (h : s.get k = none) : (delAll s l).get k = none := by
  induction l generalizing s with
  | nil => exact h
  | cons a t ih =>
    apply ih
    by_cases hak : a = k
    · subst hak; exact Store.get_del_self s a
    · rw [Store.get_del_ne s a k (Ne.symm hak)]
      exact h

theorem Store.get_delAll_of_mem {l : List Bytes} {k : Bytes} (s : Store)
    (h : k ∈ l) : (delAll s l).get k = none := by
  induction l generalizing s with
  | nil => cases h
  | cons a t ih =>
    rcases List.mem_cons.mp h with rfl | h'
    · show (delAll (s.del k) t).get k = none
      exact Store.get_delAll_none (Store.get_del_self s k)
    · exact ih _ h'

theorem Store.mem_of_get {s : Store} {k v : Bytes} (h : s.get k = some v) :
    (k, v) ∈ s := by
  induction s with
  | nil => simp [Store.get] at h
  | cons a t ih =>
    by_cases h1 : a.1 = k
    · simp [Store.get, h1] at h
      subst h
      simp [← h1]
    · simp [Store.get, h1] at h
      simp [ih h]

/-- In a sorted store, an in-range entry whose key is maximal among in-range
keys is the last element of the filter. -/

theorem filter_getLast_max {s : Store} {p : Bytes → Bool} {K V : Bytes}
    (hs : sortedB s = true) (hmem : (K, V) ∈ s) (hK : p K = true)
    (hmax : ∀ q ∈ s, p q.1 = true → bytesLt K q.1 = false) :
    (s.filter fun q => p q.1).getLast? = some (K, V) := by
  induction s with
  | nil => cases hmem
  | cons a t ih =>
    rcases List.mem_cons.mp hmem with rfl | hmem'
    · have hnil : t.filter (fun q => p q.1) = [] := by
        rw [List.filter_eq_nil_iff]
        intro q hq hpq
        have h1 := hmax q (by simp [hq]) hpq
        have h2 := sortedB_cons_lt hs q hq
        rw [h2] at h1
        exact absurd h1 (by simp)
      simp [List.filter_cons, hK, hnil]
    · have hlast := ih (sortedB_tail hs) hmem' fun q hq hpq => hmax q (by simp [hq]) hpq
      have hne : t.filter (fun q => p q.1) ≠ [] := by
        intro hnil
        rw [hnil] at hlast
        simp at hlast
      rw [List.filter_cons]
      by_cases hpa : p a.1 = true
      · rw [if_pos hpa]
        rcases List.exists_cons_of_ne_nil hne with ⟨c, rest, hcr⟩
        rw [hcr] at hlast ⊢
        rw [List.getLast?_cons_cons]
        exact hlast
      · rw [if_neg (by simpa using hpa)]
        exact hlast

/-- Claim C2 (refuted on the code; the scan iterator is buggy under
interleaving): on a store with records `a@1`, `b@1`, `b@2` all visible to the
reader, the call sequence `next(); next_back(); next()` on one iterator
yields `(a, [1])`, then `(b, [2])`, then `(b, [1])` — the user key `b` is
yielded twice and the final yield is a stale older version, violating both
"at most one entry per user key" and "the value of the latest visible
version". -/

theorem C2_scan_interleaving_yields_stale_duplicate :
    stepResult scanBugStep1 = some ([97], [1]) ∧
    stepResult scanBugStep2 = some ([98], [2]) ∧
    stepResult scanBugStep3 = some ([98], [1]) := by
  refine ⟨?_, ?_, ?_⟩ <;> rfl

/-- Claim C4 (refuted on the code): `set_metadata` writes the raw caller key
to the store, not the escape-encoded `Metadata(k)` key (tag `0x05`). Storing
metadata under caller key `[0x01]` leaves the `Metadata([0x01])` slot empty
and instead lands on the encoded `TxnNext` counter key. -/

theorem C4_metadata_not_under_metadata_key :
    getMetadata metaStore ((Key.metadata [0x01]).encode) = none ∧
    getMetadata metaStore Key.txnNext.encode = some [0x07] ∧
    (Key.metadata [0x01]).encode ≠ [0x01] := by
  refine ⟨rfl, rfl, ?_⟩
  decide

/-- Claim C10 (confirmed): for prefix `[0x01, 0xff]` the computed exclusive
end bound is `[0x02, 0x00]`, so a store key `[0x02]` — which does not start
with the prefix — is yielded by the prefix scan. -/

theorem C10_pfx_scan_includes_nonmatching_key :
    pfxEnd [0x01, 0xff] = some [0x02, 0x00] ∧
    pfxBugTxn.scanPfx [0x01, 0xff] = .ok pfxBugSt ∧
    stepResult (tryNext pfxBugSt pfxBugStore) = some ([0x02], [0x42]) ∧
    List.isPrefixOf [0x01, 0xff] [0x02] = false := by
  refine ⟨rfl, rfl, rfl, rfl⟩

/-- Claim C7 counterexample: the empty prefix and the all-`0xff` prefix are
rejected with `Internal` errors, not `Value` errors as the claim states. -/

theorem C7_counterexample_internal_not_value :
    pfxBugTxn.scanPfx [] = .error (.internal "Scan prefix cannot be empty") ∧
    pfxBugTxn.scanPfx [0xff, 0xff] = .error (.internal "Invalid prefix scan range") ∧
    scanPfxIsValueErr (pfxBugTxn.scanPfx []) = false ∧
    scanPfxIsValueErr (pfxBugTxn.scanPfx [0xff, 0xff]) = false := by
  refine ⟨rfl, rfl, rfl, rfl⟩

theorem bumpRev_all_ff {l : List Nat} (h : ∀ b ∈ l, b = 0xff) : bumpRev l = none := by
  induction l with
  | nil => rfl
  | cons b t ih =>
    have hb : b = 0xff := h b (by simp)
    have ht := ih fun x hx => h x (by simp [hx])
    simp [bumpRev, hb, ht]

theorem bumpRev_replicate {b : Nat} (hb : b ≠ 0xff) (j : Nat) (r : List Nat) :
    bumpRev (List.replicate j 0xff ++ b :: r) =
      some (List.replicate j 0x00 ++ (b + 1) :: r) := by
  induction j with
  | zero => simp [bumpRev, hb]
  | succ j ih => simp [List.replicate_succ, bumpRev, ih]

theorem bumpRev_isSome {l : List Nat} (h : ∃ b ∈ l, b ≠ 0xff) :
    ∃ r, bumpRev l = some r := by
  induction l with
  | nil => simp at h
  | cons b t ih =>
    by_cases hb : b = 0xff
    · subst hb
      have ht : ∃ x ∈ t, x ≠ 0xff := by
        rcases h with ⟨x, hx, hxne⟩
        rcases List.mem_cons.mp hx with rfl | hx'
        · exact absurd rfl hxne
        · exact ⟨x, hx', hxne⟩
      rcases ih ht with ⟨r, hr⟩
      exact ⟨0x00 :: r, by simp [bumpRev, hr]⟩
    · exact ⟨(b + 1) :: t, by simp [bumpRev, hb]⟩

/-- Claim C7 (amended: the errors are `Internal`, not `Value`):
`scan_prefix` rejects the empty prefix and all-`0xff` prefixes with
`Internal` errors; for any other non-empty prefix it succeeds, and the
exclusive end bound increments the last non-`0xff` byte and zeroes the bytes
after it. -/

theorem C7_scanPfx_errors_and_bounds (t : Txn) (p : Bytes) :
    (p = [] → t.scanPfx p = .error (.internal "Scan prefix cannot be empty")) ∧
    (p ≠ [] → (∀ b ∈ p, b = 0xff) →
      t.scanPfx p = .error (.internal "Invalid prefix scan range")) ∧
    (∀ q b j, b ≠ 0xff → p = q ++ b :: List.replicate j 0xff →
      t.scanPfx p = .ok (Scan.new t.snapshot
        (Bnd.incl p, Bnd.excl (q ++ (b + 1) :: List.replicate j 0x00)))) ∧
    ((∃ b ∈ p, b ≠ 0xff) → ∃ e, pfxEnd p = some e ∧
      t.scanPfx p = .ok (Scan.new t.snapshot (Bnd.incl p, Bnd.excl e))) := by
  refine ⟨?_, ?_, ?_, ?_⟩
  · intro hp; subst hp; rfl
  · intro hne hff
    have hrev : ∀ b ∈ p.reverse, b = 0xff := fun b hb => hff b (List.mem_reverse.mp hb)
    simp [Txn.scanPfx, hne, pfxEnd, bumpRev_all_ff hrev]
  · intro q b j hb hp
    have hrev : p.reverse = List.replicate j 0xff ++ b :: q.reverse := by
      rw [hp]
      simp [List.reverse_append]
    have hbump := bumpRev_replicate hb j q.reverse
    have hne : p ≠ [] := by rw [hp]; simp
    have hend : pfxEnd p = some (q ++ (b + 1) :: List.replicate j 0x00) := by
      rw [pfxEnd, hrev, hbump]
      simp [List.reverse_append]
    simp [Txn.scanPfx, hne, hend]
  · intro hex
    have hrev : ∃ b ∈ p.reverse, b ≠ 0xff := by
      rcases hex with ⟨b, hb, hbne⟩
      exact ⟨b, List.mem_reverse.mpr hb, hbne⟩
    rcases bumpRev_isSome hrev with ⟨r, hr⟩
    have hne : p ≠ [] := by
      rcases hex with ⟨b, hb, _⟩
      exact List.ne_nil_of_mem hb
    refine ⟨r.reverse, ?_, ?_⟩
    · simp [pfxEnd, hr]
    · simp [Txn.scanPfx, hne, pfxEnd, hr]

/-- Witness for C7: concrete instances of each part — the empty prefix, the
all-`0xff` prefix `[0xff, 0xff]`, and the prefix `[0x01, 0xff]` whose end
bound is `[0x02, 0x00]`. -/

theorem C7_scanPfx_witness :
    pfxBugTxn.scanPfx [] = .error (.internal "Scan prefix cannot be empty") ∧
    pfxBugTxn.scanPfx [0xff, 0xff] = .error (.internal "Invalid prefix scan range") ∧
    pfxBugTxn.scanPfx [0x01, 0xff] = .ok (Scan.new pfxBugTxn.snapshot
      (Bnd.incl [0x01, 0xff], Bnd.excl ([] ++ (0x01 + 1) :: List.replicate 1 0x00))) := by
  refine ⟨?_, ?_, ?_⟩
  · exact (C7_scanPfx_errors_and_bounds pfxBugTxn []).1 rfl
  · exact (C7_scanPfx_errors_and_bounds pfxBugTxn [0xff, 0xff]).2.1 (by decide) (by decide)
  · exact (C7_scanPfx_errors_and_bounds pfxBugTxn [0x01, 0xff]).2.2.1 [] 0x01 1
      (by decide) rfl

/-- Claim C5 (confirmed): `encode_bytes` is strictly order-preserving and
prefix-free on distinct inputs, and the encoded `Record` keys compare
exactly as their `(user_key, version)` pairs. -/

theorem C5_escape_order_and_record_agreement :
    (∀ a b : Bytes, bytesLt a b = true →
      bytesLt (escape a) (escape b) = true ∧ (escape a).isPrefixOf (escape b) = false) ∧
    (∀ (k1 k2 : Bytes) (v1 v2 : Nat), v1 < 2 ^ 64 → v2 < 2 ^ 64 →
      (bytesLt (Key.record k1 v1).encode (Key.record k2 v2).encode = true ↔
        (bytesLt k1 k2 = true ∨ (k1 = k2 ∧ v1 < v2)))) := by
  constructor
  · intro a b h
    constructor
    · have := escape_lt_append h [] []
      simpa using this
    · exact escape_not_isPrefixOf h
  · intro k1 k2 v1 v2 h1 h2
    exact record_encode_lt_iff k1 k2 h1 h2

/-- Witness for C5 at `a = [0x00]`, `b = [0x01]` and the record keys
`([0x00], 5)`, `([0x00], 7)`. -/

theorem C5_escape_order_witness :
    (bytesLt (escape [0x00]) (escape [0x01]) = true ∧
      (escape [0x00]).isPrefixOf (escape [0x01]) = false) ∧
    (bytesLt (Key.record [0x00] 5).encode (Key.record [0x00] 7).encode = true ↔
      (bytesLt [0x00] [0x00] = true ∨ ([0x00] : Bytes) = [0x00] ∧ 5 < 7)) := by
  constructor
  · exact C5_escape_order_and_record_agreement.1 [0x00] [0x01] (by decide)
  · exact C5_escape_order_and_record_agreement.2 [0x00] [0x00] 5 7 (by norm_num) (by norm_num)

/-- Claim C8 (confirmed): `decode(encode(k)) = k` for every well-formed key
variant, and `encode` is strictly monotone with respect to each variant's
natural order (numeric on ids/versions, lexicographic on embedded keys,
pairwise for `TxnUpdate` and `Record`). -/

theorem C8_roundtrip_and_monotone :
    (∀ k : Key, k.wf → Key.decode k.encode = some k) ∧
    (∀ a b : Nat, b < 2 ^ 64 → a < b →
      bytesLt (Key.txnActive a).encode (Key.txnActive b).encode = true) ∧
    (∀ a b : Nat, b < 2 ^ 64 → a < b →
      bytesLt (Key.txnSnapshot a).encode (Key.txnSnapshot b).encode = true) ∧
    (∀ (i1 i2 : Nat) (k1 k2 : Bytes), i2 < 2 ^ 64 →
      (i1 < i2 ∨ (i1 = i2 ∧ bytesLt k1 k2 = true)) →
      bytesLt (Key.txnUpdate i1 k1).encode (Key.txnUpdate i2 k2).encode = true) ∧
    (∀ k1 k2 : Bytes, bytesLt k1 k2 = true →
      bytesLt (Key.metadata k1).encode (Key.metadata k2).encode = true) ∧
    (∀ (k1 k2 : Bytes) (v1 v2 : Nat), v1 < 2 ^ 64 → v2 < 2 ^ 64 →
      (bytesLt k1 k2 = true ∨ (k1 = k2 ∧ v1 < v2)) →
      bytesLt (Key.record k1 v1).encode (Key.record k2 v2).encode = true) := by
  refine ⟨Key.decode_encode, ?_, ?_, ?_, ?_, ?_⟩
  · intro a b hb hab
    have hb' : b < 256 ^ 8 := by rw [← pow64_eq]; exact hb
    simp only [Key.encode, bytesLt_cons]
    exact beBytes_lt_of_lt hb' hab
  · intro a b hb hab
    have hb' : b < 256 ^ 8 := by rw [← pow64_eq]; exact hb
    simp only [Key.encode, bytesLt_cons]
    exact beBytes_lt_of_lt hb' hab
  · intro i1 i2 k1 k2 hi2 h
    have hi2' : i2 < 256 ^ 8 := by rw [← pow64_eq]; exact hi2
    simp only [Key.encode, bytesLt_cons]
    rcases h with h | ⟨rfl, h⟩
    · exact bytesLt_append_of_eq_length
        (by rw [beBytes_length, beBytes_length]) (beBytes_lt_of_lt hi2' h) k1 k2
    · rw [bytesLt_append_left]
      exact h
  · intro k1 k2 h
    simp only [Key.encode, bytesLt_cons]
    have := escape_lt_append h [] []
    simpa using this
  · intro k1 k2 v1 v2 h1 h2 h
    exact (record_encode_lt_iff k1 k2 h1 h2).mpr h

/-- Witness for C8: round trip of each variant at concrete values, and each
monotonicity clause at concrete inputs. -/

theorem C8_roundtrip_witness :
    Key.decode Key.txnNext.encode = some Key.txnNext ∧
    Key.decode (Key.txnActive 5).encode = some (Key.txnActive 5) ∧
    Key.decode (Key.txnSnapshot 6).encode = some (Key.txnSnapshot 6) ∧
    Key.decode (Key.txnUpdate 7 [1, 2]).encode = some (Key.txnUpdate 7 [1, 2]) ∧
    Key.decode (Key.record [0, 3] 8).encode = some (Key.record [0, 3] 8) ∧
    Key.decode (Key.metadata [0, 4]).encode = some (Key.metadata [0, 4]) ∧
    bytesLt (Key.txnActive 3).encode (Key.txnActive 5).encode = true ∧
    bytesLt (Key.txnSnapshot 3).encode (Key.txnSnapshot 5).encode = true ∧
    bytesLt (Key.txnUpdate 3 [9]).encode (Key.txnUpdate 5 [1]).encode = true ∧
    bytesLt (Key.metadata [1]).encode (Key.metadata [2]).encode = true ∧
    bytesLt (Key.record [1] 9).encode (Key.record [2] 1).encode = true := by
  refine ⟨C8_roundtrip_and_monotone.1 Key.txnNext trivial,
    C8_roundtrip_and_monotone.1 (Key.txnActive 5) (by norm_num [Key.wf]),
    C8_roundtrip_and_monotone.1 (Key.txnSnapshot 6) (by norm_num [Key.wf]),
    C8_roundtrip_and_monotone.1 (Key.txnUpdate 7 [1, 2]) (by norm_num [Key.wf]),
    C8_roundtrip_and_monotone.1 (Key.record [0, 3] 8) (by norm_num [Key.wf]),
    C8_roundtrip_and_monotone.1 (Key.metadata [0, 4]) trivial,
    C8_roundtrip_and_monotone.2.1 3 5 (by norm_num) (by norm_num),
    C8_roundtrip_and_monotone.2.2.1 3 5 (by norm_num) (by norm_num),
    C8_roundtrip_and_monotone.2.2.2.1 3 5 [9] [1] (by norm_num) (Or.inl (by norm_num)),
    C8_roundtrip_and_monotone.2.2.2.2.1 [1] [2] (by decide),
    C8_roundtrip_and_monotone.2.2.2.2.2 [1] [2] 9 1 (by norm_num) (by norm_num)
      (Or.inl (by decide))⟩

theorem record_same_key_lt_iff {key : Bytes} {v w : Nat} (hv : v < 2 ^ 64)
    (hw : w < 2 ^ 64) :
    bytesLt (Key.record key v).encode (Key.record key w).encode = true ↔ v < w := by
  rw [record_encode_lt_iff key key hv hw]
  simp [bytesLt_irrefl]

theorem record_encode_inj_version {key : Bytes} {v w : Nat} (hv : v < 2 ^ 64)
    (hw : w < 2 ^ 64) (h : (Key.record key v).encode = (Key.record key w).encode) :
    v = w := by
  have h1 := Key.decode_encode (Key.record key v) hv
  have h2 := Key.decode_encode (Key.record key w) hw
  rw [h, h2] at h1
  have : w = v := by simpa using h1
  omega

/-- Membership of a same-user-key record in an inclusive version window. -/

theorem inBnds_record_incl_iff {key : Bytes} {lov hiv v : Nat}
    (hlo : lov < 2 ^ 64) (hhi : hiv < 2 ^ 64) (hv : v < 2 ^ 64) :
    inBnds (Bnd.incl (Key.record key lov).encode, Bnd.incl (Key.record key hiv).encode)
      ((Key.record key v).encode) = true ↔ (lov ≤ v ∧ v ≤ hiv) := by
  simp only [inBnds, bndLower, bndUpper, Bool.and_eq_true, Bool.not_eq_true']
  rw [← Bool.not_eq_true, ← Bool.not_eq_true]
  rw [record_same_key_lt_iff hv hlo, record_same_key_lt_iff hhi hv]
  omega

theorem writeCheck_ok {sn : Snapshot} {key : Bytes} {l : List (Bytes × Bytes)}
    (h : ∀ p ∈ l, ∃ w, w < 2 ^ 64 ∧ p.1 = (Key.record key w).encode ∧
      sn.isVisible w = true) :
    writeCheck sn l = .ok () := by
  induction l with
  | nil => rfl
  | cons a rest ih =>
    rcases h a (by simp) with ⟨w, hw, hk, hvis⟩
    have hdec : Key.decode a.1 = some (Key.record key w) := by
      rw [hk]; exact Key.decode_encode _ hw
    cases a with
    | mk k val =>
      simp only at hdec
      simp [writeCheck, hdec, hvis, ih fun p hp => h p (by simp [hp])]

theorem writeCheck_serialization {sn : Snapshot} {key : Bytes}
    {l : List (Bytes × Bytes)}
    (hall : ∀ p ∈ l, ∃ w, w < 2 ^ 64 ∧ p.1 = (Key.record key w).encode)
    (hbad : ∃ p ∈ l, ∃ w, w < 2 ^ 64 ∧ p.1 = (Key.record key w).encode ∧
      sn.isVisible w = false) :
    writeCheck sn l = .error .serialization := by
  induction l with
  | nil => simp at hbad
  | cons a rest ih =>
    rcases hall a (by simp) with ⟨w, hw, hk⟩
    have hdec : Key.decode a.1 = some (Key.record key w) := by
      rw [hk]; exact Key.decode_encode _ hw
    by_cases hvis : sn.isVisible w = true
    · have hbad' : ∃ p ∈ rest, ∃ w', w' < 2 ^ 64 ∧
          p.1 = (Key.record key w').encode ∧ sn.isVisible w' = false := by
        rcases hbad with ⟨p, hp, w', hw', hk', hbadvis⟩
        rcases List.mem_cons.mp hp with rfl | hp'
        · have : w' = w := record_encode_inj_version hw' hw (hk'.symm.trans hk)
          rw [this, hvis] at hbadvis
          exact absurd hbadvis (by simp)
        · exact ⟨p, hp', w', hw', hk', hbadvis⟩
      cases a with
      | mk k val =>
        simp only at hdec
        simp [writeCheck, hdec, hvis,
          ih (fun p hp => hall p (by simp [hp])) hbad']
    · cases a with
      | mk k val =>
        simp only at hdec
        simp [writeCheck, hdec, Bool.eq_false_iff.mpr hvis]

/-- Claim C1 (confirmed): for a `ReadWrite` transaction, a write scans
`Record(k, min) ..= Record(k, u64::MAX)` with `min = min(invisible)` (or
`id + 1` when empty); if any version in that window is invisible to the
snapshot the write fails with `Serialization` leaving the store unchanged,
and otherwise it stores the `TxnUpdate(id, encoded record key)` marker and
the `Record(k, id)` entry holding the serialized optional value. -/

theorem C1_write_first_writer_wins (t : Txn) (s : Store) (key : Bytes)
    (value : Option Bytes)
    (hm : t.mode = Mode.readWrite)
    (hmin : conflictMin t < 2 ^ 64)
    (hwf : ∀ p ∈ s, inBnds (writeBnds t key) p.1 = true →
      ∃ w, w < 2 ^ 64 ∧ p.1 = (Key.record key w).encode) :
    ((∃ w, w < 2 ^ 64 ∧ conflictMin t ≤ w ∧
        (∃ val, ((Key.record key w).encode, val) ∈ s) ∧
        t.snapshot.isVisible w = false) →
      t.write key value s = (.error .serialization, s)) ∧
    ((∀ w, w < 2 ^ 64 → conflictMin t ≤ w →
        (∃ val, ((Key.record key w).encode, val) ∈ s) →
        t.snapshot.isVisible w = true) →
      t.write key value s = (.ok (),
        (s.set (Key.txnUpdate t.id (Key.record key t.id).encode).encode []).set
          (Key.record key t.id).encode (serOpt value))) := by
  have hmut : t.mode.mutable = true := by rw [hm]; rfl
  have hmax64 : U64MAX < 2 ^ 64 := by norm_num [U64MAX]
  have hall : ∀ p ∈ (s.scan (writeBnds t key)).reverse,
      ∃ w, w < 2 ^ 64 ∧ p.1 = (Key.record key w).encode := by
    intro p hp
    have hp' := List.mem_reverse.mp hp
    have := List.mem_filter.mp hp'
    exact hwf p this.1 this.2
  constructor
  · rintro ⟨w, hw, hle, ⟨val, hmem⟩, hinvis⟩
    have hin : inBnds (writeBnds t key) ((Key.record key w).encode) = true := by
      rw [writeBnds, inBnds_record_incl_iff hmin hmax64 hw]
      constructor
      · exact hle
      · unfold U64MAX
        omega
    have hscan : ((Key.record key w).encode, val) ∈ (s.scan (writeBnds t key)).reverse := by
      rw [List.mem_reverse]
      exact List.mem_filter.mpr ⟨hmem, hin⟩
    have hchk := writeCheck_serialization hall
      ⟨((Key.record key w).encode, val), hscan, w, hw, rfl, hinvis⟩
    simp [Txn.write, hmut, hchk]
  · intro hvisAll
    have hchk : writeCheck t.snapshot ((s.scan (writeBnds t key)).reverse) = .ok () := by
      apply writeCheck_ok
      intro p hp
      rcases hall p hp with ⟨w, hw, hk⟩
      have hp' := List.mem_reverse.mp hp
      have hf := List.mem_filter.mp hp'
      have hin := hf.2
      rw [hk, writeBnds, inBnds_record_incl_iff hmin hmax64 hw] at hin
      refine ⟨w, hw, hk, hvisAll w hw hin.1 ⟨p.2, ?_⟩⟩
      rw [← hk]
      exact hf.1
    simp [Txn.write, hmut, hchk]

/-- Witness for C1: transaction 2 (snapshot version 2, nothing invisible)
writing key `[107]` over a store holding a record at the later version 3
fails with `Serialization` and leaves the store unchanged; the same write
against the empty store succeeds and stores the marker and the record. -/

theorem C1_write_witness :
    writeTxn2.write [107] (some [1]) writeBugStore = (.error .serialization, writeBugStore) ∧
    writeTxn2.write [107] (some [1]) [] = (.ok (),
      (Store.set [] (Key.txnUpdate 2 (Key.record [107] 2).encode).encode []).set
        (Key.record [107] 2).encode (serOpt (some [1]))) := by
  constructor
  · refine (C1_write_first_writer_wins writeTxn2 writeBugStore [107] (some [1]) rfl
      (by decide) ?_).1 ?_
    · intro p hp hin
      rcases List.mem_cons.mp hp with rfl | hp'
      · exact ⟨3, by norm_num, rfl⟩
      · cases hp'
    · exact ⟨3, by norm_num, by decide,
        ⟨serOpt (some [3]), by simp [writeBugStore]⟩, by decide⟩
  · refine (C1_write_first_writer_wins writeTxn2 [] [107] (some [1]) rfl
      (by decide) ?_).2 ?_
    · intro p hp hin
      cases hp
    · intro w hw hle hmem
      rcases hmem with ⟨val, hval⟩
      cases hval

theorem bytesLt_nil_right (l : Bytes) : bytesLt l [] = false := by
  cases l <;> rfl

theorem txnUpdate_encode_inj {id : Nat} {u u' : Bytes} (hid : id < 2 ^ 64)
    (h : (Key.txnUpdate id u).encode = (Key.txnUpdate id u').encode) : u = u' := by
  have h1 := Key.decode_encode (Key.txnUpdate id u) hid
  have h2 := Key.decode_encode (Key.txnUpdate id u') hid
  rw [h, h2] at h1
  simpa using h1.symm

/-- Every `TxnUpdate(id, u)` key lies inside rollback's scan window for
id. -/

theorem inBnds_rollback {id : Nat} (u : Bytes) (hid : id + 1 < 2 ^ 64) :
    inBnds (Bnd.incl (Key.txnUpdate id []).encode,
      Bnd.excl (Key.txnUpdate (id + 1) []).encode)
      ((Key.txnUpdate id u).encode) = true := by
  have hid1 : id + 1 < 256 ^ 8 := by rw [← pow64_eq]; exact hid
  have hlow : bytesLt ((Key.txnUpdate id u).encode) ((Key.txnUpdate id []).encode) = false := by
    simp only [Key.encode, bytesLt_cons, List.append_nil]
    exact bytesLt_append_self (beBytes 8 id) u
  have hup : bytesLt ((Key.txnUpdate id u).encode)
      ((Key.txnUpdate (id + 1) []).encode) = true := by
    simp only [Key.encode, bytesLt_cons, List.append_nil]
    have hlt : bytesLt (beBytes 8 id) (beBytes 8 (id + 1)) = true :=
      beBytes_lt_of_lt hid1 (Nat.lt_succ_self id)
    have h2 := bytesLt_append_of_eq_length
      (by rw [beBytes_length, beBytes_length]) hlt u []
    simpa using h2
  simp [inBnds, bndLower, bndUpper, hlow, hup]

theorem rollbackLoop_ok {id : Nat} {l : List (Bytes × Bytes)} (hid : id < 2 ^ 64)
    (h : ∀ p ∈ l, ∃ u, p.1 = (Key.txnUpdate id u).encode) :
    ∃ keys, rollbackLoop l = .ok keys ∧
      (∀ p ∈ l, p.1 ∈ keys) ∧
      (∀ p ∈ l, ∀ u, p.1 = (Key.txnUpdate id u).encode → u ∈ keys) := by
  induction l with
  | nil => exact ⟨[], rfl, by simp, by simp⟩
  | cons a rest ih =>
    rcases h a (by simp) with ⟨u0, hk⟩
    have hdec : Key.decode a.1 = some (Key.txnUpdate id u0) := by
      rw [hk]; exact Key.decode_encode _ hid
    rcases ih (fun p hp => h p (by simp [hp])) with ⟨keys', hloop, hm1, hm2⟩
    cases a with
    | mk k val =>
      simp only at hdec hk
      refine ⟨u0 :: k :: keys', ?_, ?_, ?_⟩
      · simp [rollbackLoop, hdec, hloop, Except.map]
      · intro p hp
        rcases List.mem_cons.mp hp with rfl | hp'
        · simp
        · simp [hm1 p hp']
      · intro p hp u hu
        rcases List.mem_cons.mp hp with rfl | hp'
        · have : u = u0 := txnUpdate_encode_inj hid (hu.symm.trans hk)
          simp [this]
        · simp [hm2 p hp' u hu]

/-- Claim C3 (confirmed): rollback of any transaction removes its
`TxnActive` marker; rollback of a `ReadWrite` transaction additionally
removes every `TxnUpdate(id, _)` marker and (given the invariant that every
record written by the transaction is covered by a marker, which `write`
maintains) every `Record(k, id)` entry, so nothing written by the
transaction remains. -/

theorem C3_rollback_removes_writes (t : Txn) (s : Store)
    (hid : t.id + 1 < 2 ^ 64)
    (hrange : ∀ p ∈ s, inBnds (rollbackBnds t) p.1 = true →
      ∃ u, p.1 = (Key.txnUpdate t.id u).encode)
    (hmarked : ∀ rk val, ((Key.record rk t.id).encode, val) ∈ s →
      ∃ mval, ((Key.txnUpdate t.id ((Key.record rk t.id).encode)).encode, mval) ∈ s) :
    ∃ s', t.rollback s = (.ok (), s') ∧
      s'.get (Key.txnActive t.id).encode = none ∧
      (t.mode = Mode.readWrite →
        (∀ u, s'.get (Key.txnUpdate t.id u).encode = none) ∧
        (∀ rk, s'.get (Key.record rk t.id).encode = none)) := by
  have hid' : t.id < 2 ^ 64 := by omega
  by_cases hmut : t.mode.mutable = true
  · have hall : ∀ p ∈ s.scan (rollbackBnds t), ∃ u, p.1 = (Key.txnUpdate t.id u).encode := by
      intro p hp
      have := List.mem_filter.mp hp
      exact hrange p this.1 this.2
    rcases rollbackLoop_ok hid' hall with ⟨keys, hloop, hm1, hm2⟩
    refine ⟨(delAll s keys).del (Key.txnActive t.id).encode, ?_, ?_, ?_⟩
    · simp [Txn.rollback, hmut, hloop]
    · exact Store.get_del_self _ _
    · intro _
      constructor
      · intro u
        have hne : (Key.txnUpdate t.id u).encode ≠ (Key.txnActive t.id).encode := by
          simp [Key.encode]
        rw [Store.get_del_ne _ _ _ hne]
        cases hget : s.get (Key.txnUpdate t.id u).encode with
        | none => exact Store.get_delAll_none hget
        | some val =>
          have hmem := Store.mem_of_get hget
          have hin : inBnds (rollbackBnds t) ((Key.txnUpdate t.id u).encode) = true :=
            inBnds_rollback u hid
          have hscan : ((Key.txnUpdate t.id u).encode, val) ∈ s.scan (rollbackBnds t) :=
            List.mem_filter.mpr ⟨hmem, hin⟩
          exact Store.get_delAll_of_mem s (hm1 _ hscan)
      · intro rk
        have hne : (Key.record rk t.id).encode ≠ (Key.txnActive t.id).encode := by
          simp [Key.encode]
        rw [Store.get_del_ne _ _ _ hne]
        cases hget : s.get (Key.record rk t.id).encode with
        | none => exact Store.get_delAll_none hget
        | some val =>
          rcases hmarked rk val (Store.mem_of_get hget) with ⟨mval, hmmem⟩
          have hin : inBnds (rollbackBnds t)
              ((Key.txnUpdate t.id ((Key.record rk t.id).encode)).encode) = true :=
            inBnds_rollback ((Key.record rk t.id).encode) hid
          have hscan : ((Key.txnUpdate t.id ((Key.record rk t.id).encode)).encode, mval) ∈
              s.scan (rollbackBnds t) :=
            List.mem_filter.mpr ⟨hmmem, hin⟩
          have hkeys := hm2 _ hscan ((Key.record rk t.id).encode) rfl
          exact Store.get_delAll_of_mem s hkeys
  · refine ⟨s.del (Key.txnActive t.id).encode, ?_, Store.get_del_self _ _, ?_⟩
    · simp [Txn.rollback, hmut]
    · intro hm
      rw [hm] at hmut
      exact absurd rfl hmut

/-- Witness for C3: rolling back transaction 1 over `rbStore` succeeds and
leaves no active marker, no update marker and no record of transaction 1. -/

theorem C3_rollback_witness :
    ∃ s', rbTxn.rollback rbStore = (.ok (), s') ∧
      s'.get (Key.txnActive rbTxn.id).encode = none ∧
      (rbTxn.mode = Mode.readWrite →
        (∀ u, s'.get (Key.txnUpdate rbTxn.id u).encode = none) ∧
        (∀ rk, s'.get (Key.record rk rbTxn.id).encode = none)) := by
  apply C3_rollback_removes_writes rbTxn rbStore (by decide)
  · intro p hp hin
    simp only [rbStore, List.mem_cons, List.not_mem_nil, or_false] at hp
    rcases hp with rfl | rfl | rfl
    · exact absurd hin (by decide)
    · exact ⟨(Key.record [5] 1).encode, rfl⟩
    · exact absurd hin (by decide)
  · intro rk val hmem
    simp only [rbStore, List.mem_cons, List.not_mem_nil, or_false,
      Prod.mk.injEq] at hmem
    rcases hmem with ⟨h1, _⟩ | ⟨h1, _⟩ | ⟨h1, _⟩
    · exact absurd h1 (by simp [Key.encode])
    · exact absurd h1 (by simp [Key.encode])
    · exact ⟨[], by
        rw [h1]
        exact List.mem_cons.mpr (Or.inr (List.mem_cons.mpr (Or.inl rfl)))⟩

theorem txnActive_encode_inj {a b : Nat} (ha : a < 2 ^ 64) (hb : b < 2 ^ 64)
    (h : (Key.txnActive a).encode = (Key.txnActive b).encode) : a = b := by
  have h1 := Key.decode_encode (Key.txnActive a) ha
  have h2 := Key.decode_encode (Key.txnActive b) hb
  rw [h, h2] at h1
  have : b = a := by simpa using h1
  omega

/-- A `TxnActive(j)` key lies in `Snapshot::take`'s scan window exactly when
`j < version`. -/

theorem inBnds_takeBnds_iff {j version : Nat} (hj : j < 2 ^ 64)
    (hv : version < 2 ^ 64) :
    inBnds (takeBnds version) ((Key.txnActive j).encode) = true ↔ j < version := by
  have hj' : j < 256 ^ 8 := by rw [← pow64_eq]; exact hj
  have hv' : version < 256 ^ 8 := by rw [← pow64_eq]; exact hv
  have h0 : (0 : Nat) < 256 ^ 8 := by norm_num
  have hlow : bytesLt ((Key.txnActive j).encode) ((Key.txnActive 0).encode) = false := by
    simp only [Key.encode, bytesLt_cons]
    by_cases h : bytesLt (beBytes 8 j) (beBytes 8 0) = true
    · exact absurd ((beBytes_lt_iff hj' h0).mp h) (by omega)
    · simpa using h
  have hup : bytesLt ((Key.txnActive j).encode) ((Key.txnActive version).encode) =
      decide (j < version) := by
    simp only [Key.encode, bytesLt_cons]
    by_cases h : j < version
    · simp [h, (beBytes_lt_iff hj' hv').mpr h]
    · have : bytesLt (beBytes 8 j) (beBytes 8 version) = false := by
        by_cases hcon : bytesLt (beBytes 8 j) (beBytes 8 version) = true
        · exact absurd ((beBytes_lt_iff hj' hv').mp hcon) h
        · simpa using hcon
      simp [h, this]
  simp [takeBnds, inBnds, bndLower, bndUpper, hlow, hup]

theorem takeLoop_ok {l : List (Bytes × Bytes)}
    (h : ∀ p ∈ l, ∃ j, j < 2 ^ 64 ∧ p.1 = (Key.txnActive j).encode) :
    ∃ ids, takeLoop l = .ok ids ∧
      ∀ j, j < 2 ^ 64 → (j ∈ ids ↔ ∃ val, ((Key.txnActive j).encode, val) ∈ l) := by
  induction l with
  | nil => exact ⟨[], rfl, by simp⟩
  | cons a rest ih =>
    rcases h a (by simp) with ⟨j0, hj0, hk⟩
    have hdec : Key.decode a.1 = some (Key.txnActive j0) := by
      rw [hk]; exact Key.decode_encode _ hj0
    rcases ih (fun p hp => h p (by simp [hp])) with ⟨ids', hloop, hiff⟩
    cases a with
    | mk k val =>
      simp only at hdec hk
      refine ⟨j0 :: ids', by simp [takeLoop, hdec, hloop, Except.map], ?_⟩
      intro j hj
      constructor
      · intro hmem
        rcases List.mem_cons.mp hmem with rfl | hmem'
        · exact ⟨val, by simp [hk]⟩
        · rcases (hiff j hj).mp hmem' with ⟨v', hv'⟩
          exact ⟨v', by simp [hv']⟩
      · rintro ⟨v', hv'⟩
        rcases List.mem_cons.mp hv' with heq | hmem'
        · have hkk : (Key.txnActive j).encode = k := (Prod.mk.injEq _ _ _ _ ▸ heq).1
          have : j = j0 := txnActive_encode_inj hj hj0 (hkk.trans hk)
          simp [this]
        · exact List.mem_cons.mpr (Or.inr ((hiff j hj).mpr ⟨v', hmem'⟩))

/-- Behavioural specification of `Snapshot::take`: it succeeds, the
resulting invisible set holds exactly the ids with an active marker strictly
below `version` (never `version` itself), and the set is persisted under
`TxnSnapshot(version)`. -/

theorem take_spec {s : Store} {version : Nat} (hv : version < 2 ^ 64)
    (hwf : ∀ p ∈ s, inBnds (takeBnds version) p.1 = true →
      ∃ j, j < 2 ^ 64 ∧ p.1 = (Key.txnActive j).encode) :
    ∃ inv, Snapshot.take s version = .ok (⟨version, inv⟩,
        s.set (Key.txnSnapshot version).encode (serNatList inv)) ∧
      (∀ j, j < 2 ^ 64 →
        (j ∈ inv ↔ ((∃ val, ((Key.txnActive j).encode, val) ∈ s) ∧ j < version))) ∧
      version ∉ inv := by
  have hall : ∀ p ∈ s.scan (takeBnds version),
      ∃ j, j < 2 ^ 64 ∧ p.1 = (Key.txnActive j).encode := by
    intro p hp
    have := List.mem_filter.mp hp
    exact hwf p this.1 this.2
  rcases takeLoop_ok hall with ⟨ids, hloop, hiff⟩
  have hiff' : ∀ j, j < 2 ^ 64 →
      (j ∈ ids ↔ ((∃ val, ((Key.txnActive j).encode, val) ∈ s) ∧ j < version)) := by
    intro j hj
    rw [hiff j hj]
    constructor
    · rintro ⟨val, hval⟩
      have hf := List.mem_filter.mp hval
      exact ⟨⟨val, hf.1⟩, (inBnds_takeBnds_iff hj hv).mp hf.2⟩
    · rintro ⟨⟨val, hval⟩, hlt⟩
      exact ⟨val, List.mem_filter.mpr ⟨hval, (inBnds_takeBnds_iff hj hv).mpr hlt⟩⟩
  refine ⟨ids, ?_, hiff', ?_⟩
  · simp [Snapshot.take, hloop]
  · intro hmem
    have := ((hiff' version hv).mp hmem).2
    omega

/-- A `ReadWrite` transaction whose snapshot is its own id with itself not
masked out reads back its latest write. -/

theorem get_after_write {t : Txn} {s s' : Store} {key : Bytes}
    {value : Option Bytes}
    (hs : sortedB s = true) (hver : t.snapshot.version = t.id)
    (hinv : t.snapshot.invisible.contains t.id = false) (hid : t.id < 2 ^ 64)
    (hlen : ∀ b, value = some b → b.length < 2 ^ 64)
    (hw : t.write key value s = (.ok (), s')) :
    t.get key s' = .ok value := by
  have hz : (0 : Nat) < 2 ^ 64 := by norm_num
  by_cases hmut : t.mode.mutable = false
  · rw [Txn.write, if_pos hmut] at hw
    simp at hw
  · rw [Txn.write, if_neg hmut] at hw
    cases hchk : writeCheck t.snapshot ((s.scan (writeBnds t key)).reverse) with
    | error e =>
      rw [hchk] at hw
      simp at hw
    | ok u =>
      rw [hchk] at hw
      have hs' : s' = (s.set (Key.txnUpdate t.id (Key.record key t.id).encode).encode
          []).set (Key.record key t.id).encode (serOpt value) :=
        ((Prod.ext_iff.mp hw).2).symm
      subst hs'
      have hsrt : sortedB ((s.set (Key.txnUpdate t.id (Key.record key t.id).encode).encode
          []).set (Key.record key t.id).encode (serOpt value)) = true :=
        sortedB_set _ _ (sortedB_set _ _ hs)
      have hmem := Store.mem_set_self
        (s.set (Key.txnUpdate t.id (Key.record key t.id).encode).encode [])
        (Key.record key t.id).encode (serOpt value)
      have hlow : bytesLt ((Key.record key t.id).encode)
          ((Key.record key 0).encode) = false := by
        by_cases hcon : bytesLt ((Key.record key t.id).encode)
            ((Key.record key 0).encode) = true
        · exact absurd ((record_same_key_lt_iff hid hz).mp hcon) (by omega)
        · simpa using hcon
      have hK : inBnds (Bnd.incl (Key.record key 0).encode,
          Bnd.incl (Key.record key t.id).encode) ((Key.record key t.id).encode) = true := by
        simp [inBnds, bndLower, bndUpper, hlow, bytesLt_irrefl]
      have hmax : ∀ q ∈ (s.set (Key.txnUpdate t.id (Key.record key t.id).encode).encode
            []).set (Key.record key t.id).encode (serOpt value),
          inBnds (Bnd.incl (Key.record key 0).encode,
            Bnd.incl (Key.record key t.id).encode) q.1 = true →
          bytesLt ((Key.record key t.id).encode) q.1 = false := by
        intro q hq hin
        simp only [inBnds, bndLower, bndUpper, Bool.and_eq_true,
          Bool.not_eq_true'] at hin
        exact hin.2
      have hlast := filter_getLast_max hsrt hmem hK hmax
      have hhead : (((s.set (Key.txnUpdate t.id (Key.record key t.id).encode).encode
            []).set (Key.record key t.id).encode (serOpt value)).scan
            (Bnd.incl (Key.record key 0).encode,
             Bnd.incl (Key.record key t.id).encode)).reverse.head? =
          some ((Key.record key t.id).encode, serOpt value) := by
        rw [List.head?_reverse]
        exact hlast
      cases hrev : (((s.set (Key.txnUpdate t.id (Key.record key t.id).encode).encode
            []).set (Key.record key t.id).encode (serOpt value)).scan
            (Bnd.incl (Key.record key 0).encode,
             Bnd.incl (Key.record key t.id).encode)).reverse with
      | nil =>
        rw [hrev] at hhead
        simp at hhead
      | cons hd tl =>
        rw [hrev] at hhead
        simp only [List.head?_cons, Option.some.injEq] at hhead
        have hninv' : t.id ∉ t.snapshot.invisible := by simpa using hinv
        have hvis : t.snapshot.isVisible t.id = true := by
          simp [Snapshot.isVisible, hver, hninv']
        have hdec : Key.decode ((Key.record key t.id).encode) =
            some (Key.record key t.id) := Key.decode_encode _ hid
        rw [Txn.get, hrev, hhead]
        have hninv : t.id ∉ t.snapshot.invisible := by simpa using hinv
        simp [getLoop, hdec, hvis, deserOpt_serOpt hlen, hninv]

/-- Claim C6 (confirmed): `Snapshot::take(session, version)` collects into
`invisible` exactly the ids with a `TxnActive` marker strictly below
`version`, never `version` itself, and persists the set under
`TxnSnapshot(version)`; consequently a `ReadWrite` transaction (whose
snapshot version is its own id and whose id is not masked) reads back its
own writes: after `set(k, v)` a `get(k)` returns `Some(v)`, and after
`delete(k)` it returns `None`. -/

theorem C6_take_and_read_own_writes :
    (∀ (s : Store) (version : Nat), version < 2 ^ 64 →
      (∀ p ∈ s, inBnds (takeBnds version) p.1 = true →
        ∃ j, j < 2 ^ 64 ∧ p.1 = (Key.txnActive j).encode) →
      ∃ inv, Snapshot.take s version = .ok (⟨version, inv⟩,
          s.set (Key.txnSnapshot version).encode (serNatList inv)) ∧
        (∀ j, j < 2 ^ 64 →
          (j ∈ inv ↔ ((∃ val, ((Key.txnActive j).encode, val) ∈ s) ∧ j < version))) ∧
        version ∉ inv) ∧
    (∀ (t : Txn) (s s' : Store) (key : Bytes),
      sortedB s = true → t.snapshot.version = t.id →
      t.snapshot.invisible.contains t.id = false → t.id < 2 ^ 64 →
      ((∀ v : Bytes, v.length < 2 ^ 64 → t.set key v s = (.ok (), s') →
        t.get key s' = .ok (some v)) ∧
       (t.del key s = (.ok (), s') → t.get key s' = .ok none))) := by
  constructor
  · intro s version hv hwf
    exact take_spec hv hwf
  · intro t s s' key hs hver hinv hid
    constructor
    · intro v hvlen hw
      exact get_after_write hs hver hinv hid
        (fun b hb => by cases hb; exact hvlen) hw
    · intro hw
      exact get_after_write hs hver hinv hid (fun b hb => by simp at hb) hw

/-- Witness for C6: taking a snapshot at version 2 over `rbStore` yields an
invisible set, and transaction 1 reads back its own write of `[9]` under key
`[7]` and its own tombstone. -/

theorem C6_take_and_read_own_writes_witness :
    (∃ inv, Snapshot.take rbStore 2 = .ok (⟨2, inv⟩,
        rbStore.set (Key.txnSnapshot 2).encode (serNatList inv)) ∧
      (∀ j, j < 2 ^ 64 →
        (j ∈ inv ↔ ((∃ val, ((Key.txnActive j).encode, val) ∈ rbStore) ∧ j < 2))) ∧
      2 ∉ inv) ∧
    Txn.get wTxn [7] wStoreSet = .ok (some [9]) ∧
    Txn.get wTxn [7] wStoreDel = .ok none := by
  refine ⟨C6_take_and_read_own_writes.1 rbStore 2 (by norm_num) ?_, ?_, ?_⟩
  · intro p hp hin
    simp only [rbStore, List.mem_cons, List.not_mem_nil, or_false] at hp
    rcases hp with rfl | rfl | rfl
    · exact ⟨1, by norm_num, rfl⟩
    · exact absurd hin (by decide)
    · exact absurd hin (by decide)
  · exact (C6_take_and_read_own_writes.2 wTxn [] wStoreSet [7] rfl rfl rfl
      (by decide)).1 [9] (by norm_num) rfl
  · exact (C6_take_and_read_own_writes.2 wTxn [] wStoreDel [7] rfl rfl rfl
      (by decide)).2 rfl

/-- Claim C9 (confirmed): `begin_with_mode(Snapshot{version})` with a missing
`TxnSnapshot(version)` fails with the exact `Value` message, but only after
having bumped the `TxnNext` counter, written the `TxnActive(id)` marker and
persisted a `TxnSnapshot(id)` entry — none of which are undone by the error,
so the failed begin permanently consumes a transaction id and leaves an
orphaned active marker. -/

theorem C9_snapshot_begin_consumes_id (s : Store) (version id : Nat)
    (hid : beginId s = .ok id)
    (hid64 : id < 2 ^ 64) (hver : version < 2 ^ 64) (hne : version ≠ id)
    (hmiss : s.get (Key.txnSnapshot version).encode = none)
    (hwfTA : ∀ p ∈ s, inBnds (takeBnds id) p.1 = true →
      ∃ j, j < 2 ^ 64 ∧ p.1 = (Key.txnActive j).encode) :
    ∃ s3, Txn.begin (Mode.snapshot version) s =
        (.error (.value ("Snapshot not found for version " ++ toString version)), s3) ∧
      s3.get Key.txnNext.encode = some (serU64 (id + 1)) ∧
      s3.get (Key.txnActive id).encode = some (serMode (Mode.snapshot version)) ∧
      (∃ inv, s3.get (Key.txnSnapshot id).encode = some (serNatList inv)) := by
  have hwf2 : ∀ p ∈ (s.set Key.txnNext.encode (serU64 (id + 1))).set
      (Key.txnActive id).encode (serMode (Mode.snapshot version)),
      inBnds (takeBnds id) p.1 = true →
      ∃ j, j < 2 ^ 64 ∧ p.1 = (Key.txnActive j).encode := by
    intro p hp hin
    rcases Store.mem_set_weak hp with hak | hp1
    · exfalso
      rw [hak] at hin
      simp [takeBnds, inBnds, bndUpper, bytesLt_irrefl] at hin
    · rcases Store.mem_set_weak hp1 with hnk | hps
      · exfalso
        rw [hnk] at hin
        have hlt : bytesLt Key.txnNext.encode ((Key.txnActive 0).encode) = true := by
          simp [Key.encode, bytesLt]
        simp [takeBnds, inBnds, bndLower, hlt] at hin
      · exact hwfTA p hps hin
  rcases take_spec hid64 hwf2 with ⟨inv, htake, hiff, hnotin⟩
  have hne1 : (Key.txnSnapshot version).encode ≠ (Key.txnSnapshot id).encode := by
    intro h
    apply hne
    simp only [Key.encode, List.cons.injEq, true_and] at h
    exact beBytes_inj (by rw [← pow64_eq]; exact hver) (by rw [← pow64_eq]; exact hid64) h
  have hne2 : (Key.txnSnapshot version).encode ≠ (Key.txnActive id).encode := by
    simp [Key.encode]
  have hne3 : (Key.txnSnapshot version).encode ≠ Key.txnNext.encode := by
    simp [Key.encode]
  have hrest : (((s.set Key.txnNext.encode (serU64 (id + 1))).set
      (Key.txnActive id).encode (serMode (Mode.snapshot version))).set
      (Key.txnSnapshot id).encode (serNatList inv)).get
      (Key.txnSnapshot version).encode = none := by
    rw [Store.get_set_ne _ _ _ _ hne1, Store.get_set_ne _ _ _ _ hne2,
      Store.get_set_ne _ _ _ _ hne3]
    exact hmiss
  have hrestore : Snapshot.restore (((s.set Key.txnNext.encode (serU64 (id + 1))).set
      (Key.txnActive id).encode (serMode (Mode.snapshot version))).set
      (Key.txnSnapshot id).encode (serNatList inv)) version =
      .error (.value ("Snapshot not found for version " ++ toString version)) := by
    simp [Snapshot.restore, hrest]
  have hnk_ne1 : Key.txnNext.encode ≠ (Key.txnSnapshot id).encode := by
    simp [Key.encode]
  have hnk_ne2 : Key.txnNext.encode ≠ (Key.txnActive id).encode := by
    simp [Key.encode]
  have hak_ne1 : (Key.txnActive id).encode ≠ (Key.txnSnapshot id).encode := by
    simp [Key.encode]
  refine ⟨((s.set Key.txnNext.encode (serU64 (id + 1))).set
      (Key.txnActive id).encode (serMode (Mode.snapshot version))).set
      (Key.txnSnapshot id).encode (serNatList inv), ?_, ?_, ?_, ⟨inv, ?_⟩⟩
  · simp [Txn.begin, hid, htake, hrestore]
  · rw [Store.get_set_ne _ _ _ _ hnk_ne1, Store.get_set_ne _ _ _ _ hnk_ne2]
    exact Store.get_set_self _ _ _
  · rw [Store.get_set_ne _ _ _ _ hak_ne1]
    exact Store.get_set_self _ _ _
  · exact Store.get_set_self _ _ _

theorem C9_snapshot_begin_witness :
    ∃ s3, Txn.begin (Mode.snapshot 5) [] =
        (.error (.value ("Snapshot not found for version " ++ toString 5)), s3) ∧
      s3.get Key.txnNext.encode = some (serU64 (1 + 1)) ∧
      s3.get (Key.txnActive 1).encode = some (serMode (Mode.snapshot 5)) ∧
      (∃ inv, s3.get (Key.txnSnapshot 1).encode = some (serNatList inv)) := by
  apply C9_snapshot_begin_consumes_id [] 5 1 rfl (by norm_num) (by norm_num)
    (by norm_num) rfl
  intro p hp
  exact absurd hp (by simp)

end Toydb
